import Mathlib

/-
Verification development for the maze solver (maze.py).

The program represents a rectangular maze as a 2-D array of cells whose
Python values are None (open), "*" (wall), "x" (path token), "o" (tried
token).  We embed cells as a four-valued inductive type, the grid as a
list of rows, positions as pairs of integers (Python ints), and the
iterative backtracking search `find_path` as a fuel-indexed loop over an
explicit stack.  The fuel `2 * emptyCount + 2` strictly dominates the
loop measure `2 * emptyCount + stack length`, which decreases at every
iteration, so the fuelled loop computes exactly the Python loop
(totality is proved below).  The loop additionally records the list of
positions pushed and popped; these trace fields are ghost output used
only to state resource-bound properties and do not influence the
computation.
-/

/-- Cell contents: Python None, "*", "x", "o" respectively. -/
inductive Cell where
  | empty : Cell
  | wall : Cell
  | path : Cell
  | tried : Cell
deriving DecidableEq, Repr

/-- Mirror of the Python `_CellPosition` storage class (row/col are Python ints). -/
structure Pos where
  row : Int
  col : Int
deriving DecidableEq, Repr

/-- The 2-D cell array (Array2D of maze.py), stored row-major. -/
abbrev MazeGrid := List (List Cell)

/-- Read the cell at integer indices; `none` when the indices fall outside
the stored lists (Python would raise there, but every read the program
performs is bounds-checked first). -/
def getCell (g : MazeGrid) (r c : Int) : Option Cell :=
  match r, c with
  | Int.ofNat i, Int.ofNat j => (g.get? i).bind fun row => row.get? j
  | _, _ => none

/-- Write the cell at integer indices; out-of-range writes leave the grid
unchanged (the program only ever writes at bounds-checked indices). -/
def setCell (g : MazeGrid) (r c : Int) (v : Cell) : MazeGrid :=
  match r, c with
  | Int.ofNat i, Int.ofNat j =>
    match g.get? i with
    | some row => g.set i (row.set j v)
    | none => g
  | _, _ => g

/-- Mirror of the Python Maze object: the Array2D grid with its stored
dimensions, plus the optional start and exit cell positions. -/
structure Maze where
  rows : Nat
  cols : Nat
  grid : MazeGrid
  start : Option Pos
  exit : Option Pos
deriving DecidableEq, Repr

/-- Maze construction: all cells open, start and exit unset. -/
def mkMaze (numRows numCols : Nat) : Maze :=
  ⟨numRows, numCols, List.replicate numRows (List.replicate numCols Cell.empty),
    none, none⟩

/-- Bounds predicate used by the assert in the three setters and by
`_valid_move`. -/
def inRange (rows cols : Nat) (row col : Int) : Prop :=
  0 ≤ row ∧ row < (rows : Int) ∧ 0 ≤ col ∧ col < (cols : Int)

instance (rows cols : Nat) (row col : Int) : Decidable (inRange rows cols row col) := by
  unfold inRange
  infer_instance

/-- Maze.set_wall: asserts the indices are in range (modelled by returning
`none`, i.e. the AssertionError path, with no mutation), then stores the
wall marker. -/
def Maze.set_wall (m : Maze) (row col : Int) : Option Maze :=
  if inRange m.rows m.cols row col then
    some { m with grid := setCell m.grid row col Cell.wall }
  else
    none

/-- Maze.set_start: same bounds assert, then stores the start position
(metadata only; the grid is not touched). -/
def Maze.set_start (m : Maze) (row col : Int) : Option Maze :=
  if inRange m.rows m.cols row col then
    some { m with start := some ⟨row, col⟩ }
  else
    none

/-- Maze.set_exit: same bounds assert, then stores the exit position. -/
def Maze.set_exit (m : Maze) (row col : Int) : Option Maze :=
  if inRange m.rows m.cols row col then
    some { m with exit := some ⟨row, col⟩ }
  else
    none

/-- Maze._valid_move: in range and the cell is None. -/
def valid_move (rows cols : Nat) (g : MazeGrid) (row col : Int) : Bool :=
  decide (inRange rows cols row col ∧ getCell g row col = some Cell.empty)

/-- Maze._exit_found: coordinate comparison with the exit position. -/
def exit_found (e : Pos) (row col : Int) : Bool :=
  decide (row = e.row ∧ col = e.col)

/-- Maze._mark_path: drop an "x" token. -/
def mark_path (g : MazeGrid) (row col : Int) : MazeGrid :=
  setCell g row col Cell.path

/-- Maze._mark_tried: drop an "o" token. -/
def mark_tried (g : MazeGrid) (row col : Int) : MazeGrid :=
  setCell g row col Cell.tried

/-- The mutable state of the find_path loop: the grid plus the explicit
stack of cell positions (top at the head, as in lliststack). -/
structure SearchState where
  grid : MazeGrid
  stack : List Pos
deriving DecidableEq, Repr

/-- Outcome of one iteration of the while loop: either the function
returns (with the final grid and stack), or the loop continues.  The
`pushed`/`popped` fields are ghost trace output recording the event of
the iteration. -/
inductive StepRes where
  | done (found : Bool) (grid : MazeGrid) (stack : List Pos) : StepRes
  | next (s : SearchState) (pushed : Option Pos) (popped : Option Pos) : StepRes
deriving DecidableEq, Repr

/-- One iteration of the while loop of Maze.find_path: peek the top cell;
return True if it is the exit; otherwise try up (row-1), down (row+1),
left (col-1), right (col+1) in that order, pushing (and marking "x") the
first valid move; if none is valid, pop and mark "o".  An empty stack
returns False. -/
def step (rows cols : Nat) (e : Pos) (s : SearchState) : StepRes :=
  match s.stack with
  | [] => .done false s.grid []
  | c :: rest =>
    if exit_found e c.row c.col then
      .done true s.grid (c :: rest)
    else if valid_move rows cols s.grid (c.row - 1) c.col then
      .next ⟨mark_path s.grid (c.row - 1) c.col, ⟨c.row - 1, c.col⟩ :: c :: rest⟩
        (some ⟨c.row - 1, c.col⟩) none
    else if valid_move rows cols s.grid (c.row + 1) c.col then
      .next ⟨mark_path s.grid (c.row + 1) c.col, ⟨c.row + 1, c.col⟩ :: c :: rest⟩
        (some ⟨c.row + 1, c.col⟩) none
    else if valid_move rows cols s.grid c.row (c.col - 1) then
      .next ⟨mark_path s.grid c.row (c.col - 1), ⟨c.row, c.col - 1⟩ :: c :: rest⟩
        (some ⟨c.row, c.col - 1⟩) none
    else if valid_move rows cols s.grid c.row (c.col + 1) then
      .next ⟨mark_path s.grid c.row (c.col + 1), ⟨c.row, c.col + 1⟩ :: c :: rest⟩
        (some ⟨c.row, c.col + 1⟩) none
    else
      .next ⟨mark_tried s.grid c.row c.col, rest⟩ none (some c)

/-- Result of a completed find_path call: the boolean return value, the
final grid, the final stack, and the ghost traces of pushed and popped
positions (in order of occurrence). -/
structure RunResult where
  found : Bool
  grid : MazeGrid
  stack : List Pos
  pushes : List Pos
  pops : List Pos
deriving DecidableEq, Repr

/-- Fuel-indexed run of the while loop; `none` means the fuel ran out
(shown below never to happen for the fuel find_path supplies). -/
def loopT (rows cols : Nat) (e : Pos) : Nat → SearchState → Option RunResult
  | 0, _ => none
  | fuel + 1, s =>
    match step rows cols e s with
    | .done b g st => some ⟨b, g, st, [], []⟩
    | .next s' pu po =>
      (loopT rows cols e fuel s').map fun r =>
        ⟨r.found, r.grid, r.stack, pu.toList ++ r.pushes, po.toList ++ r.pops⟩

/-- Number of open (None) cells of a grid. -/
def emptyCount (g : MazeGrid) : Nat :=
  (g.map fun row => row.countP fun c => decide (c = Cell.empty)).sum

/-- Loop measure: twice the number of open cells plus the stack size.
Every iteration of the loop strictly decreases it. -/
def measureOf (s : SearchState) : Nat :=
  2 * emptyCount s.grid + s.stack.length

/-- The initial loop state: the current grid and the stack holding just
the start position (the initial push does not mark the start cell). -/
def find_path_init (m : Maze) (s : Pos) : SearchState :=
  ⟨m.grid, [s]⟩

/-- Maze.find_path.  With start or exit unset the Python code dereferences
None and crashes; that is modelled as `none`.  Otherwise the loop runs to
completion (the supplied fuel strictly dominates the loop measure). -/
def Maze.find_path (m : Maze) : Option RunResult :=
  match m.start, m.exit with
  | some s, some e =>
    loopT m.rows m.cols e (2 * emptyCount m.grid + 2) (find_path_init m s)
  | _, _ => none

/-- The cell transformation Maze.reset applies at every index: the Python
condition `cell == "x" or cell or cell == "o"` is truthy for every
non-None cell, and the body stores None. -/
def resetCell (c : Cell) : Cell :=
  if c = Cell.path ∨ ¬(c = Cell.empty) ∨ c = Cell.tried then Cell.empty else c

/-- Maze.reset: applies `resetCell` at every (row, col) of the grid. -/
def Maze.reset (m : Maze) : Maze :=
  { m with grid := m.grid.map fun row => row.map resetCell }

/-- The characters Maze.__str__ appends for one cell: "_ " for None,
otherwise the token character followed by a space. -/
def cellChars : Cell → List Char
  | Cell.empty => ['_', ' ']
  | Cell.wall => ['*', ' ']
  | Cell.path => ['x', ' ']
  | Cell.tried => ['o', ' ']

/-- The characters the inner loop of Maze.__str__ appends for one row. -/
def rowChars (row : List Cell) : List Char :=
  (row.map cellChars).flatten

/-- Whitespace as far as the rendered maze text is concerned: only the
space and newline characters ever occur as trailing whitespace, so
Python's str.rstrip coincides with stripping these. -/
def isWS (ch : Char) : Bool :=
  ch = ' ' || ch = '\n'

/-- Python str.rstrip on a character list. -/
def rstripChars (l : List Char) : List Char :=
  (l.reverse.dropWhile isWS).reverse

/-- The accumulation loop of Maze.__str__: after each row the whole
accumulated string is rstripped and a newline appended. -/
def mazeStrAux (g : MazeGrid) : List Char :=
  g.foldl (fun acc row => rstripChars (acc ++ rowChars row) ++ ['\n']) []

/-- Maze.__str__: the accumulated text with the final rstrip applied. -/
def Maze.strRepr (m : Maze) : String :=
  String.mk (rstripChars (mazeStrAux m.grid))

/-- Single marker character of a cell (used to state the rendering claim). -/
def mazeChar : Cell → Char
  | Cell.empty => '_'
  | Cell.wall => '*'
  | Cell.path => 'x'
  | Cell.tried => 'o'

/-- Modelled from the spec: one rendered row — the cells' marker
characters separated by a single space. -/
def specRowChars (row : List Cell) : List Char :=
  List.intercalate [' '] (row.map fun c => [mazeChar c])

/-- Modelled from the spec: the rendering contract of section 4.1 — each
cell as its marker character, cells within a row separated by a single
space, rows separated by a single line break, no trailing break. -/
def specRenderChars (g : MazeGrid) : List Char :=
  List.intercalate ['\n'] (g.map specRowChars)

/-- Modelled from the spec: the direction priority order the spec claims
(up, right, down, left) — the first of those four neighbours that is a
valid move. -/
def spec_first_move (rows cols : Nat) (g : MazeGrid) (c : Pos) : Option Pos :=
  [Pos.mk (c.row - 1) c.col, Pos.mk c.row (c.col + 1),
   Pos.mk (c.row + 1) c.col, Pos.mk c.row (c.col - 1)].find?
    fun d => valid_move rows cols g d.row d.col

/-- The four neighbours of a cell in the order the code tries them:
up, down, left, right. -/
def nbrsOf (c : Pos) : List Pos :=
  [Pos.mk (c.row - 1) c.col, Pos.mk (c.row + 1) c.col,
   Pos.mk c.row (c.col - 1), Pos.mk c.row (c.col + 1)]

/-- Rectangular well-formedness: the stored grid has exactly the stored
dimensions (Array2D guarantees this for every maze the program builds). -/
def Rect (rows cols : Nat) (g : MazeGrid) : Prop :=
  g.length = rows ∧ ∀ row ∈ g, row.length = cols

instance (rows cols : Nat) (g : MazeGrid) : Decidable (Rect rows cols g) := by
  unfold Rect
  infer_instance

/-- Occurrence count of an element in a list. -/
def countOcc {α : Type} [DecidableEq α] (a : α) (l : List α) : Nat :=
  l.countP fun x => decide (x = a)

/-- Reachability through open cells: the start itself, and inductively any
in-bounds neighbour of a reachable cell that is open in the given grid. -/
inductive ReachFrom (rows cols : Nat) (g : MazeGrid) (s : Pos) : Pos → Prop where
  | base : ReachFrom rows cols g s s
  | step (p q : Pos) : ReachFrom rows cols g s p → q ∈ nbrsOf p →
      inRange rows cols q.row q.col → getCell g q.row q.col = some Cell.empty →
      ReachFrom rows cols g s q

/-- The first neighbour in the code's trying order (up, down, left, right)
that is a valid move. -/
def code_first_move (rows cols : Nat) (g : MazeGrid) (c : Pos) : Option Pos :=
  (nbrsOf c).find? fun d => valid_move rows cols g d.row d.col

/-- Loop invariant of find_path, relative to the grid `g0` the search
started from: the grid stays rectangular; wall markers are never created;
a cell the search marked "o" had no open neighbour when it was popped
(and open cells only disappear afterwards); a cell the search marked "x"
is on the stack; the start is on the stack or already exhausted; and
every stacked position is in range. -/
def StInv (g0 : MazeGrid) (rows cols : Nat) (start : Pos) (s : SearchState) : Prop :=
  Rect rows cols s.grid ∧
  (∀ p : Pos, getCell s.grid p.row p.col = some Cell.wall →
      getCell g0 p.row p.col = some Cell.wall) ∧
  (∀ p : Pos, ¬(getCell g0 p.row p.col = some Cell.tried) →
      getCell s.grid p.row p.col = some Cell.tried →
      ∀ q ∈ nbrsOf p, ¬(getCell s.grid q.row q.col = some Cell.empty)) ∧
  (∀ p : Pos, ¬(getCell g0 p.row p.col = some Cell.path) →
      getCell s.grid p.row p.col = some Cell.path → p ∈ s.stack) ∧
  (start ∈ s.stack ∨ (getCell s.grid start.row start.col = some Cell.tried ∧
      ∀ q ∈ nbrsOf start, ¬(getCell s.grid q.row q.col = some Cell.empty))) ∧
  (∀ p ∈ s.stack, inRange rows cols p.row p.col)

/-- A 1-by-1 maze holding a single wall cell. -/
def mWall1 : Maze := ⟨1, 1, [[Cell.wall]], none, none⟩

/-- A 1-by-2 maze: open start at (0,0), wall at the exit (0,1) — no path. -/
def mBlocked : Maze := ⟨1, 2, [[Cell.empty, Cell.wall]], some ⟨0, 0⟩, some ⟨0, 1⟩⟩

/-- The maze obtained from `mBlocked` by running find_path and then reset. -/
def mBlockedAfter : Maze :=
  match mBlocked.find_path with
  | some r => Maze.reset { mBlocked with grid := r.grid }
  | none => mBlocked

/-- The run result of find_path on `mBlocked`. -/
def rBlocked : RunResult :=
  ⟨false, [[Cell.tried, Cell.wall]], [], [], [⟨0, 0⟩]⟩

/-- A 2-by-2 all-open maze, start (0,0), exit (0,1). -/
def mOpen22 : Maze :=
  ⟨2, 2, [[Cell.empty, Cell.empty], [Cell.empty, Cell.empty]], some ⟨0, 0⟩, some ⟨0, 1⟩⟩

/-- The initial loop state of find_path on `mOpen22`. -/
def sOpen22 : SearchState := find_path_init mOpen22 ⟨0, 0⟩

/-- A 1-by-2 all-open maze, start (0,0), exit (0,1). -/
def mOpen12 : Maze := ⟨1, 2, [[Cell.empty, Cell.empty]], some ⟨0, 0⟩, some ⟨0, 1⟩⟩

/-- A 3-by-1 maze with a wall on the exit cell (2,0); the search re-pushes
the start cell (0,0) while its cell is still open. -/
def mRepush : Maze :=
  ⟨3, 1, [[Cell.empty], [Cell.empty], [Cell.wall]], some ⟨0, 0⟩, some ⟨2, 0⟩⟩

/-- The run result of find_path on `mRepush`. -/
def rRepush : RunResult :=
  ⟨false, [[Cell.tried], [Cell.tried], [Cell.wall]], [],
    [⟨1, 0⟩, ⟨0, 0⟩], [⟨0, 0⟩, ⟨1, 0⟩, ⟨0, 0⟩]⟩

/-- A 1-by-1 maze whose only cell is a wall, with start = exit on it. -/
def mWallStart : Maze := ⟨1, 1, [[Cell.wall]], some ⟨0, 0⟩, some ⟨0, 0⟩⟩

/-- A 2-by-2 maze with one cell of each marker kind (rendering witness). -/
def mMixed : Maze :=
  ⟨2, 2, [[Cell.wall, Cell.empty], [Cell.path, Cell.tried]], none, none⟩

/-- The run result of find_path on `mWallStart`. -/
def rWallStart : RunResult := ⟨true, [[Cell.wall]], [⟨0, 0⟩], [], []⟩

/-! Basic lemmas about the embedded primitives. -/

theorem exit_found_iff (e : Pos) (r c : Int) :
    exit_found e r c = true ↔ (r = e.row ∧ c = e.col) := by
  simp [exit_found]

theorem exit_found_self (e : Pos) : exit_found e e.row e.col = true := by
  simp [exit_found]

theorem valid_move_iff (rows cols : Nat) (g : MazeGrid) (r c : Int) :
    valid_move rows cols g r c = true ↔
      (inRange rows cols r c ∧ getCell g r c = some Cell.empty) := by
  simp [valid_move]

theorem getCell_ofNat (g : MazeGrid) (i j : Nat) :
    getCell g (Int.ofNat i) (Int.ofNat j) = (g.get? i).bind fun row => row.get? j := rfl

theorem setCell_ofNat (g : MazeGrid) (i j : Nat) (v : Cell) :
    setCell g (Int.ofNat i) (Int.ofNat j) v =
      match g.get? i with
      | some row => g.set i (row.set j v)
      | none => g := rfl

theorem getCell_nonneg {g : MazeGrid} {r c : Int} {v : Cell}
    (h : getCell g r c = some v) : 0 ≤ r ∧ 0 ≤ c := by
  cases r with
  | ofNat i =>
    cases c with
    | ofNat j => exact ⟨Int.ofNat_nonneg i, Int.ofNat_nonneg j⟩
    | negSucc j => simp [getCell] at h
  | negSucc i => simp [getCell] at h

theorem length_setCell (g : MazeGrid) (r c : Int) (v : Cell) :
    (setCell g r c v).length = g.length := by
  cases r with
  | ofNat i =>
    cases c with
    | ofNat j =>
      rw [setCell_ofNat]
      cases hrow : g.get? i with
      | some row => simp
      | none => rfl
    | negSucc j => rfl
  | negSucc i => rfl

theorem getCell_setCell_self {g : MazeGrid} {r c : Int} {w : Cell} (v : Cell)
    (h : getCell g r c = some w) :
    getCell (setCell g r c v) r c = some v := by
  cases r with
  | ofNat i =>
    cases c with
    | ofNat j =>
      rw [getCell_ofNat] at h
      cases hrow : g.get? i with
      | none => rw [hrow] at h; simp at h
      | some row =>
        rw [hrow] at h
        simp only [Option.some_bind'] at h
        have hj : j < row.length := by
          by_contra hj
          rw [List.get?_eq_none.mpr (Nat.le_of_not_lt hj)] at h
          exact Option.noConfusion h
        have hi : i < g.length := by
          by_contra hi
          rw [List.get?_eq_none.mpr (Nat.le_of_not_lt hi)] at hrow
          exact Option.noConfusion hrow
        rw [setCell_ofNat, hrow, getCell_ofNat]
        simp only
        rw [List.get?_set_eq_of_lt _ hi, Option.some_bind', List.get?_set_eq_of_lt _ hj]
    | negSucc j => simp [getCell] at h
  | negSucc i => simp [getCell] at h

theorem getCell_setCell_ne (g : MazeGrid) (v : Cell) {r c r' c' : Int}
    (h : ¬(r = r' ∧ c = c')) :
    getCell (setCell g r c v) r' c' = getCell g r' c' := by
  cases r with
  | negSucc i => rfl
  | ofNat i =>
    cases c with
    | negSucc j => rfl
    | ofNat j =>
      rw [setCell_ofNat]
      cases hrow : g.get? i with
      | none => rfl
      | some row =>
        simp only
        cases r' with
        | negSucc i' => rfl
        | ofNat i' =>
          cases c' with
          | negSucc j' => rfl
          | ofNat j' =>
            rw [getCell_ofNat, getCell_ofNat]
            by_cases hi : i = i'
            · subst hi
              have hj : j ≠ j' := by
                intro hj
                exact h ⟨rfl, by rw [hj]⟩
              rw [List.get?_set_eq _ _ _, hrow]
              simp only [Option.map_eq_map, Option.map_some, Option.some_bind']
              rw [List.get?_set_ne _ _ hj]
            · rw [List.get?_set_ne _ _ hi]

theorem getCell_mem {g : MazeGrid} {r c : Int} {v : Cell}
    (h : getCell g r c = some v) :
    ∃ row ∈ g, row.get? c.toNat = some v ∧ g.get? r.toNat = some row := by
  cases r with
  | negSucc i => simp [getCell] at h
  | ofNat i =>
    cases c with
    | negSucc j => simp [getCell] at h
    | ofNat j =>
      rw [getCell_ofNat] at h
      cases hrow : g.get? i with
      | none => rw [hrow] at h; simp at h
      | some row =>
        rw [hrow] at h
        simp only [Option.some_bind'] at h
        exact ⟨row, List.get?_mem hrow, h, hrow⟩

theorem inRange_of_getCell_some {rows cols : Nat} {g : MazeGrid} {r c : Int} {v : Cell}
    (hg : Rect rows cols g) (h : getCell g r c = some v) :
    inRange rows cols r c := by
  obtain ⟨hr, hc⟩ := getCell_nonneg h
  obtain ⟨row, hmem, hjc, hir⟩ := getCell_mem h
  have hi : r.toNat < g.length := by
    by_contra hi
    rw [List.get?_eq_none.mpr (Nat.le_of_not_lt hi)] at hir
    exact Option.noConfusion hir
  have hj : c.toNat < row.length := by
    by_contra hj
    rw [List.get?_eq_none.mpr (Nat.le_of_not_lt hj)] at hjc
    exact Option.noConfusion hjc
  have h1 : g.length = rows := hg.1
  have h2 : row.length = cols := hg.2 row hmem
  refine ⟨hr, ?_, hc, ?_⟩ <;> omega

theorem getCell_isSome_of_inRange {rows cols : Nat} {g : MazeGrid} {r c : Int}
    (hg : Rect rows cols g) (h : inRange rows cols r c) :
    ∃ v, getCell g r c = some v := by
  obtain ⟨hr, hrlt, hc, hclt⟩ := h
  have hi : r.toNat < g.length := by rw [hg.1]; omega
  cases hget : g.get? r.toNat with
  | none =>
    rw [List.get?_eq_none] at hget
    omega
  | some row =>
    have hj : c.toNat < row.length := by
      rw [hg.2 row (List.get?_mem hget)]; omega
    cases hcell : row.get? c.toNat with
    | none =>
      rw [List.get?_eq_none] at hcell
      omega
    | some v =>
      refine ⟨v, ?_⟩
      have hr' : r = Int.ofNat r.toNat := (Int.toNat_of_nonneg hr).symm
      have hc' : c = Int.ofNat c.toNat := (Int.toNat_of_nonneg hc).symm
      rw [hr', hc', getCell_ofNat, hget, Option.some_bind', hcell]

theorem rect_setCell {rows cols : Nat} {g : MazeGrid} (r c : Int) (v : Cell)
    (hg : Rect rows cols g) : Rect rows cols (setCell g r c v) := by
  constructor
  · rw [length_setCell]; exact hg.1
  · intro row hrow
    cases r with
    | negSucc i => exact hg.2 row hrow
    | ofNat i =>
      cases c with
      | negSucc j => exact hg.2 row hrow
      | ofNat j =>
        rw [setCell_ofNat] at hrow
        cases hr0 : g.get? i with
        | none =>
          rw [hr0] at hrow
          exact hg.2 row hrow
        | some row0 =>
          rw [hr0] at hrow
          simp only at hrow
          rcases List.mem_or_eq_of_mem_set hrow with hmem | heq
          · exact hg.2 row hmem
          · subst heq
            rw [List.length_set]
            exact hg.2 row0 (List.get?_mem hr0)

theorem step_nil (rows cols : Nat) (e : Pos) (g : MazeGrid) :
    step rows cols e ⟨g, []⟩ = .done false g [] := rfl

theorem step_cons (rows cols : Nat) (e : Pos) (g : MazeGrid) (c : Pos) (rest : List Pos) :
    step rows cols e ⟨g, c :: rest⟩ =
      (if exit_found e c.row c.col then
        .done true g (c :: rest)
      else if valid_move rows cols g (c.row - 1) c.col then
        .next ⟨mark_path g (c.row - 1) c.col, ⟨c.row - 1, c.col⟩ :: c :: rest⟩
          (some ⟨c.row - 1, c.col⟩) none
      else if valid_move rows cols g (c.row + 1) c.col then
        .next ⟨mark_path g (c.row + 1) c.col, ⟨c.row + 1, c.col⟩ :: c :: rest⟩
          (some ⟨c.row + 1, c.col⟩) none
      else if valid_move rows cols g c.row (c.col - 1) then
        .next ⟨mark_path g c.row (c.col - 1), ⟨c.row, c.col - 1⟩ :: c :: rest⟩
          (some ⟨c.row, c.col - 1⟩) none
      else if valid_move rows cols g c.row (c.col + 1) then
        .next ⟨mark_path g c.row (c.col + 1), ⟨c.row, c.col + 1⟩ :: c :: rest⟩
          (some ⟨c.row, c.col + 1⟩) none
      else
        .next ⟨mark_tried g c.row c.col, rest⟩ none (some c)) := rfl

theorem pos_eq_of_coords {c e : Pos} (h1 : c.row = e.row) (h2 : c.col = e.col) : c = e := by
  cases c; cases e
  simp_all

theorem step_cases (rows cols : Nat) (e : Pos) (s : SearchState) :
    (s.stack = [] ∧ step rows cols e s = .done false s.grid []) ∨
    (∃ rest, s.stack = e :: rest ∧ step rows cols e s = .done true s.grid s.stack) ∨
    (∃ c rest d, s.stack = c :: rest ∧ ¬(c = e) ∧ d ∈ nbrsOf c ∧
      valid_move rows cols s.grid d.row d.col = true ∧
      step rows cols e s = .next ⟨mark_path s.grid d.row d.col, d :: s.stack⟩ (some d) none) ∨
    (∃ c rest, s.stack = c :: rest ∧ ¬(c = e) ∧
      (∀ q ∈ nbrsOf c, valid_move rows cols s.grid q.row q.col = false) ∧
      step rows cols e s = .next ⟨mark_tried s.grid c.row c.col, rest⟩ none (some c)) := by
  obtain ⟨g, stk⟩ := s
  cases stk with
  | nil => exact Or.inl ⟨rfl, rfl⟩
  | cons c rest =>
    by_cases he : exit_found e c.row c.col = true
    · refine Or.inr (Or.inl ⟨rest, ?_, ?_⟩)
      · obtain ⟨h1, h2⟩ := (exit_found_iff e c.row c.col).mp he
        rw [pos_eq_of_coords h1 h2]
      · rw [step_cons, if_pos he]
    · rw [Bool.not_eq_true] at he
      have hne : ¬(c = e) := by
        intro hc
        subst hc
        rw [exit_found_self] at he
        exact Bool.noConfusion he
      have hef : ¬(exit_found e c.row c.col = true) := by simp [he]
      by_cases h1 : valid_move rows cols g (c.row - 1) c.col = true
      · exact Or.inr (Or.inr (Or.inl ⟨c, rest, ⟨c.row - 1, c.col⟩, rfl, hne,
          by simp [nbrsOf], h1, by rw [step_cons, if_neg hef, if_pos h1]⟩))
      · by_cases h2 : valid_move rows cols g (c.row + 1) c.col = true
        · exact Or.inr (Or.inr (Or.inl ⟨c, rest, ⟨c.row + 1, c.col⟩, rfl, hne,
            by simp [nbrsOf], h2,
            by rw [step_cons, if_neg hef, if_neg h1, if_pos h2]⟩))
        · by_cases h3 : valid_move rows cols g c.row (c.col - 1) = true
          · exact Or.inr (Or.inr (Or.inl ⟨c, rest, ⟨c.row, c.col - 1⟩, rfl, hne,
              by simp [nbrsOf], h3,
              by rw [step_cons, if_neg hef, if_neg h1, if_neg h2, if_pos h3]⟩))
          · by_cases h4 : valid_move rows cols g c.row (c.col + 1) = true
            · exact Or.inr (Or.inr (Or.inl ⟨c, rest, ⟨c.row, c.col + 1⟩, rfl, hne,
                by simp [nbrsOf], h4,
                by rw [step_cons, if_neg hef, if_neg h1, if_neg h2, if_neg h3, if_pos h4]⟩))
            · refine Or.inr (Or.inr (Or.inr ⟨c, rest, rfl, hne, ?_, ?_⟩))
              · intro q hq
                rw [Bool.not_eq_true] at h1 h2 h3 h4
                simp only [nbrsOf, List.mem_cons, List.mem_singleton] at hq
                rcases hq with rfl | rfl | rfl | rfl | h
                · exact h1
                · exact h2
                · exact h3
                · exact h4
                · simp at h
              · rw [step_cons, if_neg hef, if_neg h1, if_neg h2, if_neg h3, if_neg h4]

theorem loopT_succ (rows cols : Nat) (e : Pos) (fuel : Nat) (s : SearchState) :
    loopT rows cols e (fuel + 1) s =
      (match step rows cols e s with
      | .done b g st => some ⟨b, g, st, [], []⟩
      | .next s' pu po =>
        (loopT rows cols e fuel s').map fun r =>
          ⟨r.found, r.grid, r.stack, pu.toList ++ r.pushes, po.toList ++ r.pops⟩) := rfl

theorem loopT_shape (rows cols : Nat) (e : Pos) :
    ∀ (fuel : Nat) (s : SearchState) (r : RunResult),
      loopT rows cols e fuel s = some r →
      (r.found = true → ∃ t, r.stack = e :: t) ∧ (r.found = false → r.stack = []) := by
  intro fuel
  induction fuel with
  | zero => intro s r h; simp [loopT] at h
  | succ n ih =>
    intro s r h
    rw [loopT_succ] at h
    rcases step_cases rows cols e s with ⟨hstk, hstep⟩ | ⟨rest, hstk, hstep⟩ |
      ⟨c, rest, d, hstk, hne, hmem, hvm, hstep⟩ | ⟨c, rest, hstk, hne, hall, hstep⟩ <;>
      rw [hstep] at h
    · obtain rfl := (Option.some.injEq _ _ ▸ h :)
      exact ⟨fun hf => Bool.noConfusion hf, fun _ => rfl⟩
    · obtain rfl := (Option.some.injEq _ _ ▸ h :)
      exact ⟨fun _ => ⟨rest, hstk⟩, fun hf => Bool.noConfusion hf⟩
    · simp only [Option.map_eq_some'] at h
      obtain ⟨r', hr', rfl⟩ := h
      exact ih _ r' hr'
    · simp only [Option.map_eq_some'] at h
      obtain ⟨r', hr', rfl⟩ := h
      exact ih _ r' hr'

theorem countP_set_le (p : Cell → Bool) (v : Cell) (hv : p v = false) :
    ∀ (l : List Cell) (j : Nat), (l.set j v).countP p ≤ l.countP p := by
  intro l
  induction l with
  | nil => intro j; simp
  | cons a tl ih =>
    intro j
    cases j with
    | zero =>
      simp only [List.set_cons_zero, List.countP_cons, hv]
      have := List.countP_le_length (l := tl) (p := p)
      by_cases ha : p a = true <;> simp [ha]
    | succ j =>
      simp only [List.set_cons_succ, List.countP_cons]
      have := ih j
      by_cases ha : p a = true <;> simp [ha] <;> omega

theorem countP_set_of_get (p : Cell → Bool) (v w : Cell) (hv : p v = false)
    (hw : p w = true) :
    ∀ (l : List Cell) (j : Nat), l.get? j = some w →
      (l.set j v).countP p + 1 = l.countP p := by
  intro l
  induction l with
  | nil => intro j h; simp at h
  | cons a tl ih =>
    intro j h
    cases j with
    | zero =>
      simp only [List.get?_cons_zero, Option.some.injEq] at h
      subst h
      simp [List.countP_cons, hv, hw]
    | succ j =>
      simp only [List.get?_cons_succ] at h
      simp only [List.set_cons_succ, List.countP_cons]
      have := ih j h
      omega

theorem emptyCount_cons (row : List Cell) (tl : MazeGrid) :
    emptyCount (row :: tl) =
      (row.countP fun c => decide (c = Cell.empty)) + emptyCount tl := by
  simp [emptyCount]

theorem emptyCount_set_row :
    ∀ (g : MazeGrid) (i : Nat) (row row' : List Cell), g.get? i = some row →
      emptyCount (g.set i row') + (row.countP fun c => decide (c = Cell.empty)) =
        emptyCount g + (row'.countP fun c => decide (c = Cell.empty)) := by
  intro g
  induction g with
  | nil => intro i row row' h; simp at h
  | cons a tl ih =>
    intro i row row' h
    cases i with
    | zero =>
      simp only [List.get?_cons_zero, Option.some.injEq] at h
      subst h
      simp only [List.set_cons_zero, emptyCount_cons]
      omega
    | succ i =>
      simp only [List.get?_cons_succ] at h
      simp only [List.set_cons_succ, emptyCount_cons]
      have := ih i row row' h
      omega

theorem emptyCount_setCell {g : MazeGrid} {r c : Int} {v : Cell}
    (hv : ¬(v = Cell.empty)) (hc : getCell g r c = some Cell.empty) :
    emptyCount (setCell g r c v) + 1 = emptyCount g := by
  obtain ⟨hr0, hc0⟩ := getCell_nonneg hc
  cases r with
  | negSucc i => simp [getCell] at hc
  | ofNat i =>
    cases c with
    | negSucc j => simp [getCell] at hc
    | ofNat j =>
      rw [getCell_ofNat] at hc
      cases hrow : g.get? i with
      | none => rw [hrow] at hc; simp at hc
      | some row =>
        rw [hrow] at hc
        simp only [Option.some_bind'] at hc
        rw [setCell_ofNat, hrow]
        simp only
        have h1 := emptyCount_set_row g i row (row.set j v) hrow
        have h2 := countP_set_of_get (fun c => decide (c = Cell.empty)) v Cell.empty
          (by simp [hv]) (by simp) row j hc
        omega

theorem emptyCount_setCell_le (g : MazeGrid) (r c : Int) {v : Cell}
    (hv : ¬(v = Cell.empty)) :
    emptyCount (setCell g r c v) ≤ emptyCount g := by
  cases r with
  | negSucc i => exact Nat.le_refl _
  | ofNat i =>
    cases c with
    | negSucc j => exact Nat.le_refl _
    | ofNat j =>
      rw [setCell_ofNat]
      cases hrow : g.get? i with
      | none => exact Nat.le_refl _
      | some row =>
        simp only
        have h1 := emptyCount_set_row g i row (row.set j v) hrow
        have h2 := countP_set_le (fun c => decide (c = Cell.empty)) v (by simp [hv]) row j
        omega

theorem step_next_measure (rows cols : Nat) (e : Pos) {s s' : SearchState}
    {pu po : Option Pos} (h : step rows cols e s = .next s' pu po) :
    measureOf s' + (pu.toList.length + po.toList.length) ≤ measureOf s ∧
      pu.toList.length + po.toList.length = 1 := by
  rcases step_cases rows cols e s with ⟨hstk, hstep⟩ | ⟨rest, hstk, hstep⟩ |
    ⟨c, rest, d, hstk, hne, hmem, hvm, hstep⟩ | ⟨c, rest, hstk, hne, hall, hstep⟩ <;>
    rw [hstep] at h
  · exact StepRes.noConfusion h
  · exact StepRes.noConfusion h
  · obtain ⟨hs', hpu, hpo⟩ := StepRes.next.inj h
    subst hs'; subst hpu; subst hpo
    have hempty := ((valid_move_iff rows cols s.grid d.row d.col).mp hvm).2
    have hdec := emptyCount_setCell (v := Cell.path) (by simp) hempty
    refine ⟨?_, rfl⟩
    simp only [measureOf, mark_path, hstk, List.length_cons, Option.toList_some,
      List.length_singleton, Option.toList_none, List.length_nil]
    simp only [measureOf, hstk, List.length_cons] at *
    omega
  · obtain ⟨hs', hpu, hpo⟩ := StepRes.next.inj h
    subst hs'; subst hpu; subst hpo
    have hle := emptyCount_setCell_le s.grid c.row c.col (v := Cell.tried) (by simp)
    refine ⟨?_, rfl⟩
    simp only [measureOf, mark_tried, hstk, List.length_cons, Option.toList_some,
      List.length_singleton, Option.toList_none, List.length_nil]
    omega

theorem loopT_succ_done {rows cols : Nat} {e : Pos} (fuel : Nat) {s : SearchState}
    {b : Bool} {g : MazeGrid} {st : List Pos}
    (h : step rows cols e s = .done b g st) :
    loopT rows cols e (fuel + 1) s = some ⟨b, g, st, [], []⟩ := by
  rw [loopT_succ, h]

theorem loopT_succ_next {rows cols : Nat} {e : Pos} (fuel : Nat) {s s' : SearchState}
    {pu po : Option Pos} (h : step rows cols e s = .next s' pu po) :
    loopT rows cols e (fuel + 1) s =
      (loopT rows cols e fuel s').map fun r =>
        ⟨r.found, r.grid, r.stack, pu.toList ++ r.pushes, po.toList ++ r.pops⟩ := by
  rw [loopT_succ, h]

theorem loopT_total (rows cols : Nat) (e : Pos) :
    ∀ (fuel : Nat) (s : SearchState), measureOf s < fuel →
      ∃ r, loopT rows cols e fuel s = some r := by
  intro fuel
  induction fuel with
  | zero => intro s h; omega
  | succ n ih =>
    intro s hs
    cases hstep : step rows cols e s with
    | done b g st => exact ⟨⟨b, g, st, [], []⟩, loopT_succ_done n hstep⟩
    | next s' pu po =>
      obtain ⟨hmeas, hone⟩ := step_next_measure rows cols e hstep
      obtain ⟨r', hr'⟩ := ih s' (by omega)
      exact ⟨_, by rw [loopT_succ_next n hstep, hr']; rfl⟩

theorem loopT_measure (rows cols : Nat) (e : Pos) :
    ∀ (fuel : Nat) (s : SearchState) (r : RunResult),
      loopT rows cols e fuel s = some r →
      2 * emptyCount r.grid + r.stack.length + r.pushes.length + r.pops.length ≤
        measureOf s := by
  intro fuel
  induction fuel with
  | zero => intro s r h; simp [loopT] at h
  | succ n ih =>
    intro s r h
    rw [loopT_succ] at h
    cases hstep : step rows cols e s with
    | done b g st =>
      rw [hstep] at h
      obtain rfl := (Option.some.injEq _ _ ▸ h :)
      rcases step_cases rows cols e s with ⟨hstk, hstep'⟩ | ⟨rest, hstk, hstep'⟩ |
        ⟨c, rest, d, hstk, hne, hmem, hvm, hstep'⟩ | ⟨c, rest, hstk, hne, hall, hstep'⟩ <;>
        rw [hstep'] at hstep
      · obtain ⟨rfl, rfl, rfl⟩ := StepRes.done.inj hstep
        simp [measureOf]
      · obtain ⟨rfl, rfl, rfl⟩ := StepRes.done.inj hstep
        simp [measureOf]
      · exact StepRes.noConfusion hstep
      · exact StepRes.noConfusion hstep
    | next s' pu po =>
      rw [hstep] at h
      simp only [Option.map_eq_some'] at h
      obtain ⟨r', hr', rfl⟩ := h
      obtain ⟨hmeas, hone⟩ := step_next_measure rows cols e hstep
      have := ih s' r' hr'
      simp only [List.length_append]
      omega

theorem find_path_total (m : Maze) (s e : Pos) (h1 : m.start = some s)
    (h2 : m.exit = some e) : ∃ r, m.find_path = some r := by
  unfold Maze.find_path
  rw [h1, h2]
  apply loopT_total
  simp only [measureOf, find_path_init, List.length_singleton]
  omega

theorem getCell_setCell_self_none {g : MazeGrid} {r c : Int} (v : Cell)
    (h : getCell g r c = none) : getCell (setCell g r c v) r c = none := by
  cases r with
  | negSucc i => exact h
  | ofNat i =>
    cases c with
    | negSucc j => exact h
    | ofNat j =>
      rw [getCell_ofNat] at h
      rw [setCell_ofNat]
      cases hrow : g.get? i with
      | none => rw [getCell_ofNat, hrow]; rfl
      | some row =>
        rw [hrow] at h
        simp only [Option.some_bind'] at h
        have hj : row.length ≤ j := List.get?_eq_none.mp h
        have hi : i < g.length := by
          by_contra hi
          rw [List.get?_eq_none.mpr (Nat.le_of_not_lt hi)] at hrow
          exact Option.noConfusion hrow
        simp only
        rw [getCell_ofNat, List.get?_set_eq_of_lt _ hi, Option.some_bind']
        exact List.get?_eq_none.mpr (by rw [List.length_set]; exact hj)

/-! Claim theorems. -/

/-- Claim C1 (code bug witness): the spec says `reset()` leaves every
`Wall` cell untouched, and the docstring of `Maze.reset` says it removes
only path and tried tokens; but the truthiness branch of its condition
fires on every non-None cell, so a wall cell becomes open after reset.
Evaluated on a 1-by-1 maze holding a single wall. -/
theorem C1_reset_erases_wall :
    getCell mWall1.grid 0 0 = some Cell.wall ∧
    getCell mWall1.reset.grid 0 0 = some Cell.empty ∧
    ¬(Cell.empty = Cell.wall) := by decide

/-- Claim C3 (code bug witness): find_path on the blocked 1-by-2 maze
returns False; after reset (which erases the wall, a code bug) the rerun
returns True, so find_path-reset-find_path is not reproducible. -/
theorem C3_rerun_differs :
    (mBlocked.find_path).map RunResult.found = some false ∧
    (mBlockedAfter.find_path).map RunResult.found = some true ∧
    ¬(some false = some true) := by decide

/-- Claim C6 (confirmed): for out-of-range indices each of set_wall,
set_start, set_exit signals the range error (the assert raises before any
mutation), modelled by the `none` result carrying no mutated maze. -/
theorem C6_bounds_enforced (m : Maze) (row col : Int)
    (h : ¬ inRange m.rows m.cols row col) :
    m.set_wall row col = none ∧ m.set_start row col = none ∧
      m.set_exit row col = none := by
  unfold Maze.set_wall Maze.set_start Maze.set_exit
  rw [if_neg h, if_neg h, if_neg h]
  exact ⟨rfl, rfl, rfl⟩

/-- Witness for C6 at the concrete out-of-range index (-1, 0) of a 2-by-2 maze. -/
theorem C6_bounds_enforced_witness :
    (mkMaze 2 2).set_wall (-1) 0 = none ∧ (mkMaze 2 2).set_start (-1) 0 = none ∧
      (mkMaze 2 2).set_exit (-1) 0 = none :=
  C6_bounds_enforced (mkMaze 2 2) (-1) 0 (by decide)

/-- Claim C10 (confirmed): when start = exit, the first loop iteration
finds the exit on top of the stack before any marking, so find_path
returns True with the grid exactly as it was — whatever the cells hold. -/
theorem C10_start_eq_exit (m : Maze) (p : Pos) (r : RunResult)
    (h1 : m.start = some p) (h2 : m.exit = some p) (h3 : m.find_path = some r) :
    r.found = true ∧ r.grid = m.grid ∧ r.stack = [p] := by
  have hstep : step m.rows m.cols p (find_path_init m p) = .done true m.grid [p] := by
    rw [show find_path_init m p = ⟨m.grid, [p]⟩ from rfl, step_cons,
      if_pos (exit_found_self p)]
  have hkey : m.find_path =
      loopT m.rows m.cols p (2 * emptyCount m.grid + 2) (find_path_init m p) := by
    unfold Maze.find_path
    rw [h1, h2]
  rw [hkey] at h3
  have hfuel : (2 * emptyCount m.grid + 2) = (2 * emptyCount m.grid + 1) + 1 := rfl
  rw [hfuel, loopT_succ_done _ hstep] at h3
  obtain rfl := (Option.some.injEq _ _ ▸ h3 :)
  exact ⟨rfl, rfl, rfl⟩

/-- Witness for C10 on the 1-by-1 maze whose single cell is a wall and
holds both start and exit: the run succeeds and the wall cell is intact. -/
theorem C10_start_eq_exit_witness :
    rWallStart.found = true ∧ rWallStart.grid = mWallStart.grid ∧
      rWallStart.stack = [⟨0, 0⟩] :=
  C10_start_eq_exit mWallStart ⟨0, 0⟩ rWallStart rfl rfl (by decide)

/-- Claim C2 counterexample: from the initial state of the all-open
2-by-2 maze with start (0,0) and exit (0,1), the spec's priority order
(up, right, down, left) would push the right neighbour (0,1), but the
code pushes the downward neighbour (1,0): the code tries down before
right. -/
theorem C2_counterexample :
    step 2 2 ⟨0, 1⟩ sOpen22 =
      .next ⟨[[Cell.empty, Cell.empty], [Cell.path, Cell.empty]], [⟨1, 0⟩, ⟨0, 0⟩]⟩
        (some ⟨1, 0⟩) none ∧
    spec_first_move 2 2 sOpen22.grid ⟨0, 0⟩ = some ⟨0, 1⟩ ∧
    ¬((Pos.mk 1 0) = ⟨0, 1⟩) ∧
    mOpen22.start = some ⟨0, 0⟩ ∧ sOpen22 = find_path_init mOpen22 ⟨0, 0⟩ := by
  decide

/-- Claim C2 amended (proved): in every iteration whose top cell is not
the exit, the directions are attempted in the fixed order up, down, left,
right, and the first in-bounds currently-open neighbour is the one pushed
(when none qualifies, the top cell is popped and marked tried). -/
theorem C2_amended_priority_order (rows cols : Nat) (e : Pos) (s : SearchState)
    (c : Pos) (rest : List Pos) (hst : s.stack = c :: rest) (hne : ¬(c = e)) :
    (∀ d, code_first_move rows cols s.grid c = some d →
      step rows cols e s =
        .next ⟨mark_path s.grid d.row d.col, d :: c :: rest⟩ (some d) none) ∧
    (code_first_move rows cols s.grid c = none →
      step rows cols e s = .next ⟨mark_tried s.grid c.row c.col, rest⟩ none (some c)) := by
  obtain ⟨g, stk⟩ := s
  simp only at hst
  subst hst
  have hef : ¬(exit_found e c.row c.col = true) := by
    intro hx
    obtain ⟨hx1, hx2⟩ := (exit_found_iff e c.row c.col).mp hx
    exact hne (pos_eq_of_coords hx1 hx2)
  unfold code_first_move nbrsOf
  by_cases h1 : valid_move rows cols g (c.row - 1) c.col = true
  · rw [List.find?_cons_of_pos _ (by exact h1)]
    constructor
    · intro d hd
      obtain rfl := (Option.some.injEq _ _ ▸ hd :)
      rw [step_cons, if_neg hef, if_pos h1]
    · intro h0
      exact Option.noConfusion h0
  · rw [List.find?_cons_of_neg _ (by simpa using h1)]
    by_cases h2 : valid_move rows cols g (c.row + 1) c.col = true
    · rw [List.find?_cons_of_pos _ (by exact h2)]
      constructor
      · intro d hd
        obtain rfl := (Option.some.injEq _ _ ▸ hd :)
        rw [step_cons, if_neg hef, if_neg h1, if_pos h2]
      · intro h0
        exact Option.noConfusion h0
    · rw [List.find?_cons_of_neg _ (by simpa using h2)]
      by_cases h3 : valid_move rows cols g c.row (c.col - 1) = true
      · rw [List.find?_cons_of_pos _ (by exact h3)]
        constructor
        · intro d hd
          obtain rfl := (Option.some.injEq _ _ ▸ hd :)
          rw [step_cons, if_neg hef, if_neg h1, if_neg h2, if_pos h3]
        · intro h0
          exact Option.noConfusion h0
      · rw [List.find?_cons_of_neg _ (by simpa using h3)]
        by_cases h4 : valid_move rows cols g c.row (c.col + 1) = true
        · rw [List.find?_cons_of_pos _ (by exact h4)]
          constructor
          · intro d hd
            obtain rfl := (Option.some.injEq _ _ ▸ hd :)
            rw [step_cons, if_neg hef, if_neg h1, if_neg h2, if_neg h3, if_pos h4]
          · intro h0
            exact Option.noConfusion h0
        · rw [List.find?_cons_of_neg _ (by simpa using h4), List.find?_nil]
          constructor
          · intro d hd
            exact Option.noConfusion hd
          · intro _
            rw [step_cons, if_neg hef, if_neg h1, if_neg h2, if_neg h3, if_neg h4]

/-- Witness for the amended C2 on the all-open 2-by-2 maze: the first
valid move in the code's order is the downward neighbour (1,0), and the
step pushes it. -/
theorem C2_amended_priority_order_witness :
    step 2 2 ⟨0, 1⟩ sOpen22 =
      .next ⟨mark_path sOpen22.grid 1 0, ⟨1, 0⟩ :: ⟨0, 0⟩ :: []⟩ (some ⟨1, 0⟩) none :=
  (C2_amended_priority_order 2 2 ⟨0, 1⟩ sOpen22 ⟨0, 0⟩ [] rfl (by decide)).1
    ⟨1, 0⟩ (by decide)

/-- Claim C4 counterexample: on the all-open 1-by-2 maze the start cell
(0,0) is the top of the stack at its first inspection, yet its cell is
still open — the initial push performs no marking, so the start cell is
not PathMark when first inspected as top of stack. -/
theorem C4_counterexample :
    mOpen12.start = some ⟨0, 0⟩ ∧
    (find_path_init mOpen12 ⟨0, 0⟩).stack = [⟨0, 0⟩] ∧
    getCell (find_path_init mOpen12 ⟨0, 0⟩).grid 0 0 = some Cell.empty ∧
    ¬(Cell.empty = Cell.path) := by decide

/-- Claim C4 amended (proved): every cell the loop pushes is open at push
time and marked PathMark in the same iteration (hence marked when first
inspected as top); a cell can become PathMark only by being pushed while
open, so a PathMark cell is never re-marked PathMark; and the initial
push of the start leaves the grid untouched. -/
theorem C4_amended_marking (rows cols : Nat) (e : Pos) (s s' : SearchState)
    (pu po : Option Pos) (h : step rows cols e s = .next s' pu po) :
    (∀ d, pu = some d → getCell s.grid d.row d.col = some Cell.empty ∧
      getCell s'.grid d.row d.col = some Cell.path ∧ s'.stack = d :: s.stack) ∧
    (∀ q : Pos, getCell s'.grid q.row q.col = some Cell.path →
      getCell s.grid q.row q.col = some Cell.path ∨ pu = some q) ∧
    (∀ (mz : Maze) (p : Pos), (find_path_init mz p).grid = mz.grid) := by
  rcases step_cases rows cols e s with ⟨hstk, hstep⟩ | ⟨rest, hstk, hstep⟩ |
    ⟨c, rest, d, hstk, hne, hmem, hvm, hstep⟩ | ⟨c, rest, hstk, hne, hall, hstep⟩ <;>
    rw [hstep] at h
  · exact StepRes.noConfusion h
  · exact StepRes.noConfusion h
  · obtain ⟨hs', hpu, hpo⟩ := StepRes.next.inj h
    have hgrid : s'.grid = mark_path s.grid d.row d.col := by rw [← hs']
    have hstack : s'.stack = d :: s.stack := by rw [← hs']
    subst hpu; subst hpo
    have hempty := ((valid_move_iff rows cols s.grid d.row d.col).mp hvm).2
    refine ⟨?_, ?_, fun _ _ => rfl⟩
    · intro d' hd'
      obtain rfl := (Option.some.injEq _ _ ▸ hd' :)
      refine ⟨hempty, ?_, hstack⟩
      rw [hgrid]
      exact getCell_setCell_self Cell.path hempty
    · intro q hq
      by_cases hqd : d.row = q.row ∧ d.col = q.col
      · exact Or.inr (by rw [pos_eq_of_coords hqd.1 hqd.2])
      · rw [hgrid, mark_path, getCell_setCell_ne s.grid Cell.path hqd] at hq
        exact Or.inl hq
  · obtain ⟨hs', hpu, hpo⟩ := StepRes.next.inj h
    have hgrid : s'.grid = mark_tried s.grid c.row c.col := by rw [← hs']
    subst hpu; subst hpo
    refine ⟨?_, ?_, fun _ _ => rfl⟩
    · intro d hd
      exact Option.noConfusion hd
    · intro q hq
      by_cases hqc : c.row = q.row ∧ c.col = q.col
      · exfalso
        obtain rfl := pos_eq_of_coords hqc.1 hqc.2
        rw [hgrid, mark_tried] at hq
        cases hcv : getCell s.grid c.row c.col with
        | none => rw [getCell_setCell_self_none Cell.tried hcv] at hq; exact Option.noConfusion hq
        | some w =>
          rw [getCell_setCell_self Cell.tried hcv] at hq
          exact Cell.noConfusion ((Option.some.injEq _ _ ▸ hq :))
      · rw [hgrid, mark_tried, getCell_setCell_ne s.grid Cell.tried hqc] at hq
        exact Or.inl hq

/-- Witness for the amended C4 on the all-open 2-by-2 maze: the first
iteration pushes the open cell (1,0) and marks it PathMark. -/
theorem C4_amended_marking_witness :
    getCell sOpen22.grid 1 0 = some Cell.empty ∧
    getCell [[Cell.empty, Cell.empty], [Cell.path, Cell.empty]] 1 0 = some Cell.path ∧
    ([⟨1, 0⟩, ⟨0, 0⟩] : List Pos) = ⟨1, 0⟩ :: sOpen22.stack :=
  (C4_amended_marking 2 2 ⟨0, 1⟩ sOpen22
      ⟨[[Cell.empty, Cell.empty], [Cell.path, Cell.empty]], [⟨1, 0⟩, ⟨0, 0⟩]⟩
      (some ⟨1, 0⟩) none (by decide)).1 ⟨1, 0⟩ rfl

theorem resetCell_eq (c : Cell) : resetCell c = Cell.empty := by
  cases c <;> rfl

theorem reset_reset_grid (g : MazeGrid) :
    ((g.map fun row => row.map resetCell).map fun row => row.map resetCell) =
      g.map fun row => row.map resetCell := by
  rw [List.map_map]
  apply List.map_congr_left
  intro row _
  simp only [Function.comp_apply, List.map_map]
  apply List.map_congr_left
  intro c _
  simp only [Function.comp_apply, resetCell_eq]

theorem mem_rstripChars {ch : Char} {l : List Char} (h : ch ∈ rstripChars l) :
    ch ∈ l := by
  unfold rstripChars at h
  rw [List.mem_reverse] at h
  have h2 := (List.dropWhile_sublist (l := l.reverse) isWS).subset h
  rw [List.mem_reverse] at h2
  exact h2

theorem mem_mazeStrAux_aux :
    ∀ (g : MazeGrid) (acc : List Char) (ch : Char),
      ch ∈ g.foldl (fun acc row => rstripChars (acc ++ rowChars row) ++ ['\n']) acc →
      ch ∈ acc ∨ ch = '\n' ∨ ∃ row ∈ g, ch ∈ rowChars row := by
  intro g
  induction g with
  | nil =>
    intro acc ch h
    simp only [List.foldl_nil] at h
    exact Or.inl h
  | cons row tl ih =>
    intro acc ch h
    simp only [List.foldl_cons] at h
    rcases ih _ ch h with hacc | hnl | ⟨row', hrow', hch⟩
    · rcases List.mem_append.mp hacc with h1 | h2
      · rcases List.mem_append.mp (mem_rstripChars h1) with h3 | h4
        · exact Or.inl h3
        · exact Or.inr (Or.inr ⟨row, List.mem_cons_self row tl, h4⟩)
      · rw [List.mem_singleton] at h2
        exact Or.inr (Or.inl h2)
    · exact Or.inr (Or.inl hnl)
    · exact Or.inr (Or.inr ⟨row', List.mem_cons_of_mem row hrow', hch⟩)

theorem reset_strRepr_chars (m : Maze) {ch : Char}
    (h : ch ∈ (m.reset.strRepr).toList) : ch = '\n' ∨ ch = '_' ∨ ch = ' ' := by
  have h' : ch ∈ rstripChars (mazeStrAux m.reset.grid) := h
  have h'' := mem_rstripChars h'
  rcases mem_mazeStrAux_aux m.reset.grid [] ch h'' with h0 | hnl | ⟨row, hrow, hch⟩
  · simp at h0
  · exact Or.inl hnl
  · have hrow' : row ∈ m.grid.map fun r => r.map resetCell := hrow
    obtain ⟨row0, _, rfl⟩ := List.mem_map.mp hrow'
    unfold rowChars at hch
    obtain ⟨lc, hlc, hchin⟩ := List.mem_flatten.mp hch
    rw [List.map_map] at hlc
    obtain ⟨c0, _, rfl⟩ := List.mem_map.mp hlc
    simp only [Function.comp_apply, resetCell_eq, cellChars] at hchin
    rcases List.mem_cons.mp hchin with h1 | h2
    · exact Or.inr (Or.inl h1)
    · rw [List.mem_singleton] at h2
      exact Or.inr (Or.inr h2)

/-- Claim C8 (confirmed): reset is idempotent — in fact every cell maps
to Empty, walls included (the wall erasure is the C1 code bug, but it
does not affect idempotence) — and after one reset the rendered string
contains no path-token and no tried-token character. -/
theorem C8_reset_idempotent_clean (m : Maze) :
    m.reset.reset = m.reset ∧
    ¬('x' ∈ (m.reset.strRepr).toList) ∧ ¬('o' ∈ (m.reset.strRepr).toList) := by
  refine ⟨?_, ?_, ?_⟩
  · show Maze.mk m.rows m.cols
        ((m.grid.map fun row => row.map resetCell).map fun row => row.map resetCell)
        m.start m.exit =
      Maze.mk m.rows m.cols (m.grid.map fun row => row.map resetCell) m.start m.exit
    rw [reset_reset_grid]
  · intro hx
    rcases reset_strRepr_chars m hx with h | h | h <;> exact absurd h (by decide)
  · intro ho
    rcases reset_strRepr_chars m ho with h | h | h <;> exact absurd h (by decide)

theorem intercalate_single (sep x : List Char) : List.intercalate sep [x] = x := by
  simp [List.intercalate, List.intersperse]

theorem intercalate_cons2 (sep x y : List Char) (ys : List (List Char)) :
    List.intercalate sep (x :: y :: ys) = x ++ sep ++ List.intercalate sep (y :: ys) := by
  simp [List.intercalate, List.intersperse_cons_cons, List.append_assoc]

theorem dropWhile_append_of_exists {p : Char → Bool} :
    ∀ (x y : List Char), (∃ c ∈ x, p c = false) →
      (x ++ y).dropWhile p = x.dropWhile p ++ y := by
  intro x
  induction x with
  | nil =>
    intro y h
    obtain ⟨c, hc, _⟩ := h
    simp at hc
  | cons a tl ih =>
    intro y h
    by_cases ha : p a = true
    · rw [List.cons_append, List.dropWhile_cons_of_pos ha, List.dropWhile_cons_of_pos ha]
      obtain ⟨c, hc, hpc⟩ := h
      rcases List.mem_cons.mp hc with rfl | hctl
      · rw [ha] at hpc; exact Bool.noConfusion hpc
      · exact ih y ⟨c, hctl, hpc⟩
    · rw [List.cons_append, List.dropWhile_cons_of_neg ha, List.dropWhile_cons_of_neg ha,
        List.cons_append]

theorem rstripChars_append_of_exists (a b : List Char)
    (h : ∃ c ∈ b, isWS c = false) :
    rstripChars (a ++ b) = a ++ rstripChars b := by
  unfold rstripChars
  rw [List.reverse_append]
  rw [dropWhile_append_of_exists _ _ (by
    obtain ⟨c, hc, hpc⟩ := h
    exact ⟨c, List.mem_reverse.mpr hc, hpc⟩)]
  rw [List.reverse_append, List.reverse_reverse]

theorem rstripChars_append_ws (l : List Char) {ch : Char} (h : isWS ch = true) :
    rstripChars (l ++ [ch]) = rstripChars l := by
  unfold rstripChars
  rw [List.reverse_append]
  simp only [List.reverse_cons, List.reverse_nil, List.nil_append, List.singleton_append]
  rw [List.dropWhile_cons_of_pos h]

theorem rstripChars_append_nonws (l : List Char) {ch : Char} (h : ¬(isWS ch = true)) :
    rstripChars (l ++ [ch]) = l ++ [ch] := by
  unfold rstripChars
  rw [List.reverse_append]
  simp only [List.reverse_cons, List.reverse_nil, List.nil_append, List.singleton_append]
  rw [List.dropWhile_cons_of_neg h]
  simp

theorem mazeChar_not_ws (c : Cell) : isWS (mazeChar c) = false := by
  cases c <;> decide

theorem cellChars_eq (c : Cell) : cellChars c = [mazeChar c, ' '] := by
  cases c <;> rfl

theorem specRow_decomp (row : List Cell) (h : ¬(row = [])) :
    ∃ l c, specRowChars row = l ++ [mazeChar c] := by
  induction row with
  | nil => exact absurd rfl h
  | cons c tl ih =>
    cases tl with
    | nil =>
      refine ⟨[], c, ?_⟩
      simp [specRowChars, intercalate_single]
    | cons c2 tl2 =>
      obtain ⟨l, c', hl⟩ := ih (by simp)
      refine ⟨[mazeChar c] ++ [' '] ++ l, c', ?_⟩
      have hstep : specRowChars (c :: c2 :: tl2) =
          [mazeChar c] ++ [' '] ++ specRowChars (c2 :: tl2) := by
        simp only [specRowChars, List.map_cons]
        exact intercalate_cons2 [' '] [mazeChar c] [mazeChar c2] _
      rw [hstep, hl]
      simp [List.append_assoc]

theorem rowChars_eq (row : List Cell) (h : ¬(row = [])) :
    rowChars row = specRowChars row ++ [' '] := by
  induction row with
  | nil => exact absurd rfl h
  | cons c tl ih =>
    cases tl with
    | nil =>
      simp [rowChars, specRowChars, intercalate_single, cellChars_eq]
    | cons c2 tl2 =>
      have hrc : rowChars (c :: c2 :: tl2) = cellChars c ++ rowChars (c2 :: tl2) := by
        simp [rowChars]
      have hsr : specRowChars (c :: c2 :: tl2) =
          [mazeChar c] ++ [' '] ++ specRowChars (c2 :: tl2) := by
        simp only [specRowChars, List.map_cons]
        exact intercalate_cons2 [' '] [mazeChar c] [mazeChar c2] _
      rw [hrc, ih (by simp), hsr, cellChars_eq]
      simp [List.append_assoc]

theorem rstrip_specRow (row : List Cell) (h : ¬(row = [])) :
    rstripChars (specRowChars row) = specRowChars row := by
  obtain ⟨l, c, hl⟩ := specRow_decomp row h
  rw [hl]
  exact rstripChars_append_nonws l (by simp [mazeChar_not_ws])

theorem exists_nonws_specRow (row : List Cell) (h : ¬(row = [])) :
    ∃ ch ∈ specRowChars row, isWS ch = false := by
  obtain ⟨l, c, hl⟩ := specRow_decomp row h
  refine ⟨mazeChar c, ?_, mazeChar_not_ws c⟩
  rw [hl]
  exact List.mem_append.mpr (Or.inr (List.mem_singleton.mpr rfl))

theorem rstrip_rowChars (row : List Cell) (h : ¬(row = [])) :
    rstripChars (rowChars row) = specRowChars row := by
  rw [rowChars_eq row h, rstripChars_append_ws _ (by decide), rstrip_specRow row h]

theorem exists_nonws_rowChars (row : List Cell) (h : ¬(row = [])) :
    ∃ ch ∈ rowChars row, isWS ch = false := by
  obtain ⟨ch, hmem, hch⟩ := exists_nonws_specRow row h
  rw [rowChars_eq row h]
  exact ⟨ch, List.mem_append.mpr (Or.inl hmem), hch⟩

theorem mazeStrAux_eq :
    ∀ (g : MazeGrid), (∀ row ∈ g, ¬(row = [])) → ∀ (acc : List Char),
      g.foldl (fun acc row => rstripChars (acc ++ rowChars row) ++ ['\n']) acc =
        acc ++ (g.map fun row => specRowChars row ++ ['\n']).flatten := by
  intro g
  induction g with
  | nil => intro _ acc; simp
  | cons row tl ih =>
    intro hg acc
    simp only [List.foldl_cons, List.map_cons, List.flatten_cons]
    rw [ih (fun r hr => hg r (List.mem_cons_of_mem _ hr))]
    rw [rstripChars_append_of_exists acc (rowChars row)
      (exists_nonws_rowChars row (hg row (List.mem_cons_self _ _)))]
    rw [rstrip_rowChars row (hg row (List.mem_cons_self _ _))]
    simp [List.append_assoc]

theorem rstrip_flatten_spec :
    ∀ (g : MazeGrid), (∀ row ∈ g, ¬(row = [])) →
      rstripChars ((g.map fun row => specRowChars row ++ ['\n']).flatten) =
        List.intercalate ['\n'] (g.map specRowChars) := by
  intro g
  induction g with
  | nil =>
    intro _
    simp [List.intercalate, List.intersperse, rstripChars]
  | cons row tl ih =>
    intro hg
    cases tl with
    | nil =>
      simp only [List.map_cons, List.map_nil, List.flatten_cons, List.flatten_nil,
        List.append_nil]
      rw [rstripChars_append_ws _ (by decide),
        rstrip_specRow row (hg row (List.mem_cons_self _ _)),
        intercalate_single]
    | cons row2 tl2 =>
      have hne2 : ∀ r ∈ row2 :: tl2, ¬(r = []) :=
        fun r hr => hg r (List.mem_cons_of_mem _ hr)
      have hx : ∃ ch ∈ ((row2 :: tl2).map fun r => specRowChars r ++ ['\n']).flatten,
          isWS ch = false := by
        obtain ⟨ch, hmem, hch⟩ :=
          exists_nonws_specRow row2 (hne2 row2 (List.mem_cons_self _ _))
        refine ⟨ch, ?_, hch⟩
        simp only [List.map_cons, List.flatten_cons]
        exact List.mem_append.mpr (Or.inl (List.mem_append.mpr (Or.inl hmem)))
      have lhs : ((row :: row2 :: tl2).map fun r => specRowChars r ++ ['\n']).flatten =
          (specRowChars row ++ ['\n']) ++
            ((row2 :: tl2).map fun r => specRowChars r ++ ['\n']).flatten := by
        simp [List.flatten_cons]
      rw [lhs, rstripChars_append_of_exists _ _ hx, ih hne2]
      rw [show List.map specRowChars (row :: row2 :: tl2) =
        specRowChars row :: specRowChars row2 :: List.map specRowChars tl2 from rfl]
      rw [intercalate_cons2]
      simp [List.append_assoc]

/-- Claim C9 (confirmed): rendering is a pure function of the grid that
prints each cell as its marker character with single-space separation
inside a row and single line breaks between rows, no trailing break (the
row-wise rstrip of the accumulated string equals the intercalate form
whenever every row has at least one cell), and the unsearched 2-by-2
all-open maze renders as two placeholder characters per row. -/
theorem C9_rendering (m : Maze) (h : ∀ row ∈ m.grid, ¬(row = [])) :
    m.strRepr = String.mk (specRenderChars m.grid) ∧
    (mkMaze 2 2).strRepr = "_ _\n_ _" := by
  constructor
  · show String.mk (rstripChars (mazeStrAux m.grid)) = String.mk (specRenderChars m.grid)
    congr 1
    unfold mazeStrAux
    rw [mazeStrAux_eq m.grid h []]
    simp only [List.nil_append]
    rw [rstrip_flatten_spec m.grid h]
    rfl
  · decide

/-- Witness for C9 on a 2-by-2 maze holding one cell of every marker kind. -/
theorem C9_rendering_witness :
    mMixed.strRepr = String.mk (specRenderChars mMixed.grid) ∧
    (mkMaze 2 2).strRepr = "_ _\n_ _" :=
  C9_rendering mMixed (by decide)

theorem set_value_ne (v : Cell) (hv : ¬(v = Cell.empty)) (g : MazeGrid) (r c : Int) :
    ¬(getCell (setCell g r c v) r c = some Cell.empty) := by
  cases h0 : getCell g r c with
  | none =>
    rw [getCell_setCell_self_none v h0]
    exact fun hc => Option.noConfusion hc
  | some w =>
    rw [getCell_setCell_self v h0]
    intro hc
    exact hv ((Option.some.injEq _ _ ▸ hc :))

theorem set_preserves_ne_empty {g : MazeGrid} {r c : Int} {v : Cell}
    (hv : ¬(v = Cell.empty)) (q : Pos)
    (hq : ¬(getCell g q.row q.col = some Cell.empty)) :
    ¬(getCell (setCell g r c v) q.row q.col = some Cell.empty) := by
  by_cases hco : r = q.row ∧ c = q.col
  · rw [← hco.1, ← hco.2]
    exact set_value_ne v hv g r c
  · rw [getCell_setCell_ne g v hco]
    exact hq

theorem getCell_set_eq_some_of_ne {g : MazeGrid} {r c : Int} {v : Cell} {q : Pos}
    {w : Cell} (hvw : ¬(v = w))
    (h : getCell (setCell g r c v) q.row q.col = some w) :
    getCell g q.row q.col = some w ∧ ¬(r = q.row ∧ c = q.col) := by
  by_cases hco : r = q.row ∧ c = q.col
  · exfalso
    rw [← hco.1, ← hco.2] at h
    cases h0 : getCell g r c with
    | none =>
      rw [getCell_setCell_self_none v h0] at h
      exact Option.noConfusion h
    | some u =>
      rw [getCell_setCell_self v h0] at h
      exact hvw ((Option.some.injEq _ _ ▸ h :))
  · refine ⟨?_, hco⟩
    rw [← getCell_setCell_ne g v hco]
    exact h

theorem step_preserves_inv (rows cols : Nat) (e : Pos) (g0 : MazeGrid) (start : Pos)
    {s s' : SearchState} {pu po : Option Pos}
    (hInv : StInv g0 rows cols start s) (h : step rows cols e s = .next s' pu po) :
    StInv g0 rows cols start s' := by
  obtain ⟨hRect, hWall, hClosure, hPath, hStart, hInB⟩ := hInv
  rcases step_cases rows cols e s with ⟨hstk, hstep⟩ | ⟨rest, hstk, hstep⟩ |
    ⟨c, rest, d, hstk, hne, hmem, hvm, hstep⟩ | ⟨c, rest, hstk, hne, hall, hstep⟩ <;>
    rw [hstep] at h
  · exact StepRes.noConfusion h
  · exact StepRes.noConfusion h
  · -- push case
    obtain ⟨hs', hpu, hpo⟩ := StepRes.next.inj h
    have hgrid : s'.grid = setCell s.grid d.row d.col Cell.path := by rw [← hs']; rfl
    have hstack : s'.stack = d :: s.stack := by rw [← hs']
    obtain ⟨hdInR, hdEmpty⟩ := (valid_move_iff rows cols s.grid d.row d.col).mp hvm
    rw [StInv, hgrid, hstack]
    refine ⟨rect_setCell _ _ _ hRect, ?_, ?_, ?_, ?_, ?_⟩
    · intro p hp
      exact hWall p (getCell_set_eq_some_of_ne (by simp) hp).1
    · intro p hp0 hp q hq
      obtain ⟨hps, _⟩ := getCell_set_eq_some_of_ne (by simp) hp
      exact set_preserves_ne_empty (by simp) q (hClosure p hp0 hps q hq)
    · intro p hp0 hp
      by_cases hco : d.row = p.row ∧ d.col = p.col
      · obtain rfl := pos_eq_of_coords hco.1 hco.2
        exact List.mem_cons_self _ _
      · rw [getCell_setCell_ne s.grid Cell.path hco] at hp
        exact List.mem_cons_of_mem d (hPath p hp0 hp)
    · rcases hStart with hmem' | ⟨hTried, hNbrs⟩
      · exact Or.inl (List.mem_cons_of_mem d hmem')
      · refine Or.inr ⟨?_, ?_⟩
        · have hco : ¬(d.row = start.row ∧ d.col = start.col) := by
            intro hco
            rw [hco.1, hco.2] at hdEmpty
            rw [hdEmpty] at hTried
            exact Cell.noConfusion ((Option.some.injEq _ _ ▸ hTried :))
          rw [getCell_setCell_ne s.grid Cell.path hco]
          exact hTried
        · intro q hq
          exact set_preserves_ne_empty (by simp) q (hNbrs q hq)
    · intro p hp
      rcases List.mem_cons.mp hp with rfl | hp'
      · exact hdInR
      · exact hInB p hp'
  · -- pop case
    obtain ⟨hs', hpu, hpo⟩ := StepRes.next.inj h
    have hgrid : s'.grid = setCell s.grid c.row c.col Cell.tried := by rw [← hs']; rfl
    have hstack : s'.stack = rest := by rw [← hs']
    have hcmem : c ∈ s.stack := by rw [hstk]; exact List.mem_cons_self _ _
    have hcInR : inRange rows cols c.row c.col := hInB c hcmem
    obtain ⟨w, hw⟩ := getCell_isSome_of_inRange hRect hcInR
    have hctried : getCell (setCell s.grid c.row c.col Cell.tried) c.row c.col =
        some Cell.tried := getCell_setCell_self Cell.tried hw
    have hnbr : ∀ q ∈ nbrsOf c,
        ¬(getCell (setCell s.grid c.row c.col Cell.tried) q.row q.col =
          some Cell.empty) := by
      intro q hq hemp
      by_cases hco : c.row = q.row ∧ c.col = q.col
      · rw [← hco.1, ← hco.2, hctried] at hemp
        exact Cell.noConfusion ((Option.some.injEq _ _ ▸ hemp :))
      · rw [getCell_setCell_ne s.grid Cell.tried hco] at hemp
        have hqInR := inRange_of_getCell_some hRect hemp
        have htrue := (valid_move_iff rows cols s.grid q.row q.col).mpr ⟨hqInR, hemp⟩
        rw [hall q hq] at htrue
        exact Bool.noConfusion htrue
    rw [StInv, hgrid, hstack]
    refine ⟨rect_setCell _ _ _ hRect, ?_, ?_, ?_, ?_, ?_⟩
    · intro p hp
      exact hWall p (getCell_set_eq_some_of_ne (by simp) hp).1
    · intro p hp0 hp q hq
      by_cases hco : c.row = p.row ∧ c.col = p.col
      · obtain rfl := pos_eq_of_coords hco.1 hco.2
        exact hnbr q hq
      · rw [getCell_setCell_ne s.grid Cell.tried hco] at hp
        exact set_preserves_ne_empty (by simp) q (hClosure p hp0 hp q hq)
    · intro p hp0 hp
      obtain ⟨hps, hco⟩ := getCell_set_eq_some_of_ne (by simp) hp
      have hmem2 := hPath p hp0 hps
      rw [hstk] at hmem2
      rcases List.mem_cons.mp hmem2 with rfl | hp'
      · exact absurd ⟨rfl, rfl⟩ hco
      · exact hp'
    · rcases hStart with hmem' | ⟨hTried, hNbrs⟩
      · rw [hstk] at hmem'
        rcases List.mem_cons.mp hmem' with rfl | hs2
        · exact Or.inr ⟨hctried, hnbr⟩
        · exact Or.inl hs2
      · refine Or.inr ⟨?_, ?_⟩
        · by_cases hco : c.row = start.row ∧ c.col = start.col
          · rw [← hco.1, ← hco.2]
            exact hctried
          · rw [getCell_setCell_ne s.grid Cell.tried hco]
            exact hTried
        · intro q hq
          exact set_preserves_ne_empty (by simp) q (hNbrs q hq)
    · intro p hp
      exact hInB p (by rw [hstk]; exact List.mem_cons_of_mem c hp)

theorem loopT_preserves_inv (rows cols : Nat) (e : Pos) (g0 : MazeGrid) (start : Pos) :
    ∀ (fuel : Nat) (s : SearchState) (r : RunResult),
      loopT rows cols e fuel s = some r → StInv g0 rows cols start s →
      StInv g0 rows cols start ⟨r.grid, r.stack⟩ := by
  intro fuel
  induction fuel with
  | zero => intro s r h; simp [loopT] at h
  | succ n ih =>
    intro s r h hInv
    rw [loopT_succ] at h
    cases hstep : step rows cols e s with
    | done b g st =>
      rw [hstep] at h
      obtain rfl := (Option.some.injEq _ _ ▸ h :)
      rcases step_cases rows cols e s with ⟨hstk, hstep'⟩ | ⟨rest, hstk, hstep'⟩ |
        ⟨c, rest, d, hstk, hne, hmem, hvm, hstep'⟩ | ⟨c, rest, hstk, hne, hall, hstep'⟩ <;>
        rw [hstep'] at hstep
      · obtain ⟨rfl, rfl, rfl⟩ := StepRes.done.inj hstep
        rw [← hstk]
        exact hInv
      · obtain ⟨rfl, rfl, rfl⟩ := StepRes.done.inj hstep
        exact hInv
      · exact StepRes.noConfusion hstep
      · exact StepRes.noConfusion hstep
    | next s' pu po =>
      rw [hstep] at h
      simp only [Option.map_eq_some'] at h
      obtain ⟨r', hr', rfl⟩ := h
      exact ih s' r' hr' (step_preserves_inv rows cols e g0 start hInv hstep)

/-- Claim C5 (confirmed): find_path returns True exactly when the top of
the stack is the exit (terminating there), returns False exactly when the
stack has emptied, and on failure every cell reachable from the start
through initially-open in-bounds cells ends up marked TriedMark. -/
theorem C5_search_outcome (m : Maze) (s e : Pos) (r : RunResult)
    (h1 : m.start = some s) (h2 : m.exit = some e)
    (hRect : Rect m.rows m.cols m.grid) (hsInR : inRange m.rows m.cols s.row s.col)
    (h3 : m.find_path = some r) :
    (r.found = true ↔ ∃ t, r.stack = e :: t) ∧
    (r.found = false ↔ r.stack = []) ∧
    (r.found = false → ∀ q, ReachFrom m.rows m.cols m.grid s q →
      getCell r.grid q.row q.col = some Cell.tried) := by
  have hkey : m.find_path =
      loopT m.rows m.cols e (2 * emptyCount m.grid + 2) (find_path_init m s) := by
    unfold Maze.find_path
    rw [h1, h2]
  rw [hkey] at h3
  have hInv0 : StInv m.grid m.rows m.cols s (find_path_init m s) := by
    refine ⟨hRect, fun p hp => hp, ?_, ?_, Or.inl (List.mem_cons_self _ _), ?_⟩
    · intro p hp0 hp
      exact absurd hp hp0
    · intro p hp0 hp
      exact absurd hp hp0
    · intro p hp
      have hp' : p ∈ [s] := hp
      rw [List.mem_singleton] at hp'
      rw [hp']
      exact hsInR
  have hShape := loopT_shape m.rows m.cols e _ _ r h3
  have hInvF := loopT_preserves_inv m.rows m.cols e m.grid s _ _ r h3 hInv0
  obtain ⟨hRectF, hWallF, hClosureF, hPathF, hStartF, hInBF⟩ := hInvF
  refine ⟨⟨hShape.1, ?_⟩, ⟨hShape.2, ?_⟩, ?_⟩
  · rintro ⟨t, ht⟩
    cases hfound : r.found with
    | true => rfl
    | false =>
      rw [hShape.2 hfound] at ht
      exact List.noConfusion ht
  · intro hnil
    cases hfound : r.found with
    | false => rfl
    | true =>
      obtain ⟨t, ht⟩ := hShape.1 hfound
      rw [hnil] at ht
      exact List.noConfusion ht
  · intro hfalse q hreach
    have hstkF : r.stack = [] := hShape.2 hfalse
    rw [hstkF] at hPathF hStartF
    have main : ∀ q, ReachFrom m.rows m.cols m.grid s q →
        getCell r.grid q.row q.col = some Cell.tried ∧
        ∀ z ∈ nbrsOf q, ¬(getCell r.grid z.row z.col = some Cell.empty) := by
      intro q hq
      induction hq with
      | base =>
        rcases hStartF with hmem | ⟨ht, hn⟩
        · simp at hmem
        · exact ⟨ht, hn⟩
      | step p q hp hqmem hqInR hq0 ih =>
        have hqne : ¬(getCell r.grid q.row q.col = some Cell.empty) := ih.2 q hqmem
        obtain ⟨v, hv⟩ := getCell_isSome_of_inRange hRectF hqInR
        have hvne : ¬(v = Cell.empty) := fun hveq => hqne (by rw [hv, hveq])
        have hvnw : ¬(v = Cell.wall) := by
          intro hveq
          have hw := hWallF q (by rw [hv, hveq])
          rw [hq0] at hw
          exact Cell.noConfusion ((Option.some.injEq _ _ ▸ hw :))
        have hvnp : ¬(v = Cell.path) := by
          intro hveq
          have hq0p : ¬(getCell m.grid q.row q.col = some Cell.path) := by
            rw [hq0]
            intro hc
            exact Cell.noConfusion ((Option.some.injEq _ _ ▸ hc :))
          have hmem2 := hPathF q hq0p (by rw [hv, hveq])
          simp at hmem2
        have hvt : v = Cell.tried := by
          cases v
          · exact absurd rfl hvne
          · exact absurd rfl hvnw
          · exact absurd rfl hvnp
          · rfl
        refine ⟨by rw [hv, hvt], ?_⟩
        have hq0t : ¬(getCell m.grid q.row q.col = some Cell.tried) := by
          rw [hq0]
          intro hc
          exact Cell.noConfusion ((Option.some.injEq _ _ ▸ hc :))
        exact hClosureF q hq0t (by rw [hv, hvt])
    exact (main q hreach).1

/-- Witness for C5 on the blocked 1-by-2 maze: find_path fails with an
empty stack and every cell reachable from the start ends TriedMark. -/
theorem C5_search_outcome_witness :
    (rBlocked.found = true ↔ ∃ t, rBlocked.stack = Pos.mk 0 1 :: t) ∧
    (rBlocked.found = false ↔ rBlocked.stack = []) ∧
    (rBlocked.found = false → ∀ q, ReachFrom mBlocked.rows mBlocked.cols mBlocked.grid ⟨0, 0⟩ q →
      getCell rBlocked.grid q.row q.col = some Cell.tried) :=
  C5_search_outcome mBlocked ⟨0, 0⟩ ⟨0, 1⟩ rBlocked rfl rfl (by decide) (by decide)
    (by decide)

theorem countOcc_cons (c a : Pos) (l : List Pos) :
    countOcc c (a :: l) = countOcc c l + (if a = c then 1 else 0) := by
  unfold countOcc
  rw [List.countP_cons]
  by_cases h : a = c <;> simp [h]

theorem loopT_pushes_of_nonempty (rows cols : Nat) (e : Pos) (c : Pos) :
    ∀ (fuel : Nat) (s : SearchState) (r : RunResult),
      loopT rows cols e fuel s = some r →
      ¬(getCell s.grid c.row c.col = some Cell.empty) → countOcc c r.pushes = 0 := by
  intro fuel
  induction fuel with
  | zero => intro s r h _; simp [loopT] at h
  | succ n ih =>
    intro s r h hc
    rcases step_cases rows cols e s with ⟨hstk, hstep⟩ | ⟨rest, hstk, hstep⟩ |
      ⟨c0, rest, d, hstk, hne, hmem, hvm, hstep⟩ | ⟨c0, rest, hstk, hne, hall, hstep⟩
    · rw [loopT_succ_done n hstep] at h
      obtain rfl := (Option.some.injEq _ _ ▸ h :)
      rfl
    · rw [loopT_succ_done n hstep] at h
      obtain rfl := (Option.some.injEq _ _ ▸ h :)
      rfl
    · rw [loopT_succ_next n hstep] at h
      simp only [Option.map_eq_some'] at h
      obtain ⟨r', hr', rfl⟩ := h
      have hdc : ¬(d = c) := by
        intro hdc
        subst hdc
        exact hc ((valid_move_iff rows cols s.grid d.row d.col).mp hvm).2
      have hc' : ¬(getCell (setCell s.grid d.row d.col Cell.path) c.row c.col =
          some Cell.empty) := set_preserves_ne_empty (by simp) c hc
      have h0 := ih _ r' hr' hc'
      show countOcc c (d :: r'.pushes) = 0
      rw [countOcc_cons, if_neg hdc, h0]
    · rw [loopT_succ_next n hstep] at h
      simp only [Option.map_eq_some'] at h
      obtain ⟨r', hr', rfl⟩ := h
      have hc' : ¬(getCell (setCell s.grid c0.row c0.col Cell.tried) c.row c.col =
          some Cell.empty) := set_preserves_ne_empty (by simp) c hc
      exact ih _ r' hr' hc'

theorem loopT_pushes_le_one (rows cols : Nat) (e : Pos) (c : Pos) :
    ∀ (fuel : Nat) (s : SearchState) (r : RunResult),
      loopT rows cols e fuel s = some r → countOcc c r.pushes ≤ 1 := by
  intro fuel
  induction fuel with
  | zero => intro s r h; simp [loopT] at h
  | succ n ih =>
    intro s r h
    rcases step_cases rows cols e s with ⟨hstk, hstep⟩ | ⟨rest, hstk, hstep⟩ |
      ⟨c0, rest, d, hstk, hne, hmem, hvm, hstep⟩ | ⟨c0, rest, hstk, hne, hall, hstep⟩
    · rw [loopT_succ_done n hstep] at h
      obtain rfl := (Option.some.injEq _ _ ▸ h :)
      exact Nat.zero_le 1
    · rw [loopT_succ_done n hstep] at h
      obtain rfl := (Option.some.injEq _ _ ▸ h :)
      exact Nat.zero_le 1
    · rw [loopT_succ_next n hstep] at h
      simp only [Option.map_eq_some'] at h
      obtain ⟨r', hr', rfl⟩ := h
      show countOcc c (d :: r'.pushes) ≤ 1
      rw [countOcc_cons]
      by_cases hdc : d = c
      · subst hdc
        have hempty := ((valid_move_iff rows cols s.grid d.row d.col).mp hvm).2
        have hpathed : getCell (setCell s.grid d.row d.col Cell.path) d.row d.col =
            some Cell.path := getCell_setCell_self Cell.path hempty
        have hc' : ¬(getCell (setCell s.grid d.row d.col Cell.path) d.row d.col =
            some Cell.empty) := by
          rw [hpathed]
          intro hcon
          exact Cell.noConfusion ((Option.some.injEq _ _ ▸ hcon :))
        have h0 := loopT_pushes_of_nonempty rows cols e d n _ r' hr' hc'
        simp [h0]
      · have h0 := ih _ r' hr'
        simp only [if_neg hdc]
        omega
    · rw [loopT_succ_next n hstep] at h
      simp only [Option.map_eq_some'] at h
      obtain ⟨r', hr', rfl⟩ := h
      exact ih _ r' hr'

theorem loopT_pops_le (rows cols : Nat) (e : Pos) (c : Pos) :
    ∀ (fuel : Nat) (s : SearchState) (r : RunResult),
      loopT rows cols e fuel s = some r →
      countOcc c r.pops ≤ countOcc c s.stack + countOcc c r.pushes := by
  intro fuel
  induction fuel with
  | zero => intro s r h; simp [loopT] at h
  | succ n ih =>
    intro s r h
    rcases step_cases rows cols e s with ⟨hstk, hstep⟩ | ⟨rest, hstk, hstep⟩ |
      ⟨c0, rest, d, hstk, hne, hmem, hvm, hstep⟩ | ⟨c0, rest, hstk, hne, hall, hstep⟩
    · rw [loopT_succ_done n hstep] at h
      obtain rfl := (Option.some.injEq _ _ ▸ h :)
      exact Nat.zero_le _
    · rw [loopT_succ_done n hstep] at h
      obtain rfl := (Option.some.injEq _ _ ▸ h :)
      exact Nat.zero_le _
    · rw [loopT_succ_next n hstep] at h
      simp only [Option.map_eq_some'] at h
      obtain ⟨r', hr', rfl⟩ := h
      have h0 := ih _ r' hr'
      show countOcc c r'.pops ≤ countOcc c s.stack + countOcc c (d :: r'.pushes)
      rw [countOcc_cons]
      have hstack' : countOcc c (d :: s.stack) = countOcc c s.stack + (if d = c then 1 else 0) :=
        countOcc_cons c d s.stack
      rw [hstack'] at h0
      omega
    · rw [loopT_succ_next n hstep] at h
      simp only [Option.map_eq_some'] at h
      obtain ⟨r', hr', rfl⟩ := h
      have h0 : countOcc c r'.pops ≤ countOcc c rest + countOcc c r'.pushes := ih _ r' hr'
      show countOcc c (c0 :: r'.pops) ≤ countOcc c s.stack + countOcc c r'.pushes
      rw [countOcc_cons, hstk, countOcc_cons]
      omega

theorem loopT_top_exit (rows cols : Nat) (e : Pos) (fuel : Nat) (g : MazeGrid)
    (t : List Pos) (r : RunResult)
    (h : loopT rows cols e fuel ⟨g, e :: t⟩ = some r) : r.found = true := by
  cases fuel with
  | zero => simp [loopT] at h
  | succ n =>
    have hstep : step rows cols e ⟨g, e :: t⟩ = .done true g (e :: t) := by
      rw [step_cons, if_pos (exit_found_self e)]
    rw [loopT_succ_done n hstep] at h
    obtain rfl := (Option.some.injEq _ _ ▸ h :)
    rfl

theorem loopT_exit_grid (rows cols : Nat) (e : Pos) :
    ∀ (fuel : Nat) (s : SearchState) (r : RunResult),
      loopT rows cols e fuel s = some r → r.found = false → ¬(e ∈ s.stack) →
      getCell r.grid e.row e.col = getCell s.grid e.row e.col := by
  intro fuel
  induction fuel with
  | zero => intro s r h; simp [loopT] at h
  | succ n ih =>
    intro s r h hfalse hmem
    rcases step_cases rows cols e s with ⟨hstk, hstep⟩ | ⟨rest, hstk, hstep⟩ |
      ⟨c0, rest, d, hstk, hne, hmem2, hvm, hstep⟩ | ⟨c0, rest, hstk, hne, hall, hstep⟩
    · rw [loopT_succ_done n hstep] at h
      obtain rfl := (Option.some.injEq _ _ ▸ h :)
      rfl
    · exact absurd (by rw [hstk]; exact List.mem_cons_self _ _) hmem
    · rw [loopT_succ_next n hstep] at h
      simp only [Option.map_eq_some'] at h
      obtain ⟨r', hr', rfl⟩ := h
      by_cases hde : d = e
      · subst hde
        have := loopT_top_exit rows cols d n (mark_path s.grid d.row d.col) s.stack r' hr'
        rw [show (⟨r'.found, r'.grid, r'.stack, (some d).toList ++ r'.pushes,
          Option.toList none ++ r'.pops⟩ : RunResult).found = r'.found from rfl] at hfalse
        rw [this] at hfalse
        exact Bool.noConfusion hfalse
      · have hco : ¬(d.row = e.row ∧ d.col = e.col) := by
          intro hco
          exact hde (pos_eq_of_coords hco.1 hco.2)
        have hmem' : ¬(e ∈ d :: s.stack) := by
          intro hm
          rcases List.mem_cons.mp hm with heq | hm'
          · exact hde heq.symm
          · exact hmem hm'
        have hstep2 := ih _ r' hr' hfalse hmem'
        rw [show (⟨r'.found, r'.grid, r'.stack, (some d).toList ++ r'.pushes,
          Option.toList none ++ r'.pops⟩ : RunResult).grid = r'.grid from rfl]
        rw [hstep2]
        exact getCell_setCell_ne s.grid Cell.path hco
    · rw [loopT_succ_next n hstep] at h
      simp only [Option.map_eq_some'] at h
      obtain ⟨r', hr', rfl⟩ := h
      have hc0e : ¬(c0.row = e.row ∧ c0.col = e.col) := by
        intro hco
        exact hne (pos_eq_of_coords hco.1 hco.2)
      have hmem' : ¬(e ∈ rest) := by
        intro hm
        exact hmem (by rw [hstk]; exact List.mem_cons_of_mem _ hm)
      have hstep2 := ih _ r' hr' hfalse hmem'
      rw [show (⟨r'.found, r'.grid, r'.stack, Option.toList none ++ r'.pushes,
        (some c0).toList ++ r'.pops⟩ : RunResult).grid = r'.grid from rfl]
      rw [hstep2]
      exact getCell_setCell_ne s.grid Cell.tried hc0e

theorem emptyCount_le (g : MazeGrid) (cols : Nat) (h : ∀ row ∈ g, row.length = cols) :
    emptyCount g ≤ g.length * cols := by
  induction g with
  | nil => simp [emptyCount]
  | cons row tl ih =>
    rw [emptyCount_cons]
    have h1 : (row.countP fun c => decide (c = Cell.empty)) ≤ cols := by
      rw [← h row (List.mem_cons_self _ _)]
      exact List.countP_le_length _
    have h2 := ih fun r hr => h r (List.mem_cons_of_mem _ hr)
    have h3 : (row :: tl).length * cols = cols + tl.length * cols := by
      rw [List.length_cons, Nat.succ_mul]
      omega
    omega

theorem countP_add_one_le_of_get {p : Cell → Bool} :
    ∀ (l : List Cell) (j : Nat) (w : Cell), l.get? j = some w → p w = false →
      l.countP p + 1 ≤ l.length := by
  intro l
  induction l with
  | nil => intro j w h _; simp at h
  | cons a tl ih =>
    intro j w h hw
    cases j with
    | zero =>
      simp only [List.get?_cons_zero, Option.some.injEq] at h
      subst h
      rw [List.countP_cons, hw]
      have := List.countP_le_length (l := tl) (p := p)
      simp only [List.length_cons, Bool.false_eq_true, if_false]
      omega
    | succ j =>
      simp only [List.get?_cons_succ] at h
      rw [List.countP_cons]
      have h2 := ih j w h hw
      simp only [List.length_cons]
      by_cases ha : p a = true <;> simp [ha] <;> omega

theorem emptyCount_lt (rows cols : Nat) (g : MazeGrid) (hg : Rect rows cols g)
    {r c : Int} {v : Cell} (hv : getCell g r c = some v) (hne : ¬(v = Cell.empty)) :
    emptyCount g + 1 ≤ rows * cols := by
  obtain ⟨row, hmem, hjc, hir⟩ := getCell_mem hv
  have hcnt : (row.countP fun c => decide (c = Cell.empty)) + 1 ≤ cols := by
    rw [← hg.2 row hmem]
    exact countP_add_one_le_of_get row c.toNat v hjc (by simp [hne])
  have hlen : ∀ rw0 ∈ g, rw0.length = cols := hg.2
  have main : ∀ (g' : MazeGrid) (i : Nat) (row' : List Cell),
      (∀ rw0 ∈ g', rw0.length = cols) → g'.get? i = some row' →
      (row'.countP fun c => decide (c = Cell.empty)) + 1 ≤ cols →
      emptyCount g' + 1 ≤ g'.length * cols := by
    intro g'
    induction g' with
    | nil => intro i row' _ h _; simp at h
    | cons a tl ih =>
      intro i row' hl hget hc
      cases i with
      | zero =>
        simp only [List.get?_cons_zero, Option.some.injEq] at hget
        subst hget
        rw [emptyCount_cons]
        have h2 := emptyCount_le tl cols fun r hr => hl r (List.mem_cons_of_mem _ hr)
        have h3 : (a :: tl).length * cols = cols + tl.length * cols := by
          rw [List.length_cons, Nat.succ_mul]
          omega
        omega
      | succ i =>
        simp only [List.get?_cons_succ] at hget
        rw [emptyCount_cons]
        have h1 : (a.countP fun c => decide (c = Cell.empty)) ≤ cols := by
          rw [← hl a (List.mem_cons_self _ _)]
          exact List.countP_le_length _
        have h2 := ih i row' (fun r hr => hl r (List.mem_cons_of_mem _ hr)) hget hc
        have h3 : (a :: tl).length * cols = cols + tl.length * cols := by
          rw [List.length_cons, Nat.succ_mul]
          omega
        omega
  have := main g r.toNat row hlen hir hcnt
  rw [hg.1] at this
  exact this

theorem countP_row_le_emptyCount {row : List Cell} :
    ∀ {g : MazeGrid}, row ∈ g →
      (row.countP fun c => decide (c = Cell.empty)) ≤ emptyCount g := by
  intro g
  induction g with
  | nil => intro h; simp at h
  | cons a tl ih =>
    intro h
    rw [emptyCount_cons]
    rcases List.mem_cons.mp h with rfl | h'
    · omega
    · have := ih h'
      omega

theorem one_le_emptyCount {g : MazeGrid} {r c : Int}
    (h : getCell g r c = some Cell.empty) : 1 ≤ emptyCount g := by
  obtain ⟨row, hmem, hjc, _⟩ := getCell_mem h
  have hin : Cell.empty ∈ row := List.get?_mem hjc
  have hpos : 0 < row.countP fun c => decide (c = Cell.empty) :=
    List.countP_pos.mpr ⟨Cell.empty, hin, by simp⟩
  have := countP_row_le_emptyCount hmem
  omega

/-- Claim C7 counterexample: on the 3-by-1 maze with a wall on the exit
cell, the search pushes the start (0,0) a second time (it is an open
neighbour of (1,0)) and pops it twice, refuting "each cell is pushed
onto the stack at most once and popped at most once". -/
theorem C7_counterexample :
    mRepush.find_path = some rRepush ∧
    mRepush.start = some ⟨0, 0⟩ ∧
    countOcc (⟨0, 0⟩ : Pos) rRepush.pops = 2 ∧
    countOcc (⟨0, 0⟩ : Pos) ((⟨0, 0⟩ : Pos) :: rRepush.pushes) = 2 := by decide

/-- Claim C7 amended (proved): find_path always terminates, performing at
most 2 x num_rows x num_cols marker-mutating iterations (each loop
iteration that continues either pushes and marks or pops and marks, so
the iterations are counted by the push and pop traces); every cell is
pushed by the loop at most once, every cell other than the start is
popped at most once, and the start — which is also pushed once more by
the initial push — is popped at most twice. -/
theorem C7_amended_termination (m : Maze) (s e : Pos) (h1 : m.start = some s)
    (h2 : m.exit = some e) (hRect : Rect m.rows m.cols m.grid)
    (heInR : inRange m.rows m.cols e.row e.col) :
    ∃ r, m.find_path = some r ∧
      r.pushes.length + r.pops.length ≤ 2 * (m.rows * m.cols) ∧
      (∀ c : Pos, countOcc c r.pushes ≤ 1) ∧
      (∀ c : Pos, ¬(c = s) → countOcc c r.pops ≤ 1) ∧
      countOcc s r.pops ≤ 2 := by
  obtain ⟨r, hr⟩ := find_path_total m s e h1 h2
  have hkey : m.find_path =
      loopT m.rows m.cols e (2 * emptyCount m.grid + 2) (find_path_init m s) := by
    unfold Maze.find_path
    rw [h1, h2]
  have h3 : loopT m.rows m.cols e (2 * emptyCount m.grid + 2) (find_path_init m s) =
      some r := by
    rw [← hkey]
    exact hr
  refine ⟨r, hr, ?_, ?_, ?_, ?_⟩
  · have hμ := loopT_measure m.rows m.cols e _ _ r h3
    have hmeas : measureOf (find_path_init m s) = 2 * emptyCount m.grid + 1 := by
      simp [measureOf, find_path_init]
    rw [hmeas] at hμ
    have hE0 : emptyCount m.grid ≤ m.rows * m.cols := by
      have := emptyCount_le m.grid m.cols hRect.2
      rw [hRect.1] at this
      exact this
    have hShape := loopT_shape m.rows m.cols e _ _ r h3
    cases hfound : r.found with
    | true =>
      obtain ⟨t, ht⟩ := hShape.1 hfound
      have hlen : 1 ≤ r.stack.length := by
        rw [ht]
        simp
      omega
    | false =>
      have hstkF := hShape.2 hfound
      have hse : ¬(s = e) := by
        intro hse
        subst hse
        have htop := loopT_top_exit m.rows m.cols s (2 * emptyCount m.grid + 2)
          m.grid [] r h3
        rw [hfound] at htop
        exact Bool.noConfusion htop
      have hnm : ¬(e ∈ (find_path_init m s).stack) := by
        intro hm
        have hm' : e ∈ [s] := hm
        rw [List.mem_singleton] at hm'
        exact hse hm'.symm
      have hgr := loopT_exit_grid m.rows m.cols e _ _ r h3 hfound hnm
      obtain ⟨v, hv⟩ := getCell_isSome_of_inRange hRect heInR
      rw [hstkF] at hμ
      simp only [List.length_nil] at hμ
      by_cases hve : v = Cell.empty
      · have hre : getCell r.grid e.row e.col = some Cell.empty := by
          rw [hgr]
          show getCell m.grid e.row e.col = some Cell.empty
          rw [hv, hve]
        have h1e := one_le_emptyCount hre
        omega
      · have hlt := emptyCount_lt m.rows m.cols m.grid hRect hv hve
        omega
  · intro c
    exact loopT_pushes_le_one m.rows m.cols e c _ _ r h3
  · intro c hcs
    have hpop := loopT_pops_le m.rows m.cols e c _ _ r h3
    have hpush := loopT_pushes_le_one m.rows m.cols e c _ _ r h3
    have hinit : countOcc c (find_path_init m s).stack = 0 := by
      show countOcc c [s] = 0
      rw [show ([s] : List Pos) = s :: [] from rfl, countOcc_cons,
        if_neg fun h => hcs h.symm]
      rfl
    rw [hinit] at hpop
    omega
  · have hpop := loopT_pops_le m.rows m.cols e s _ _ r h3
    have hpush := loopT_pushes_le_one m.rows m.cols e s _ _ r h3
    have hinit : countOcc s (find_path_init m s).stack = 1 := by
      show countOcc s [s] = 1
      rw [show ([s] : List Pos) = s :: [] from rfl, countOcc_cons, if_pos rfl]
      rfl
    rw [hinit] at hpop
    omega

/-- Witness for the amended C7 on the re-push maze: the run exists, stays
within the 2 x 3 x 1 iteration budget, and respects the per-cell bounds. -/
theorem C7_amended_termination_witness :
    ∃ r, mRepush.find_path = some r ∧
      r.pushes.length + r.pops.length ≤ 2 * (mRepush.rows * mRepush.cols) ∧
      (∀ c : Pos, countOcc c r.pushes ≤ 1) ∧
      (∀ c : Pos, ¬(c = ⟨0, 0⟩) → countOcc c r.pops ≤ 1) ∧
      countOcc (⟨0, 0⟩ : Pos) r.pops ≤ 2 :=
  C7_amended_termination mRepush ⟨0, 0⟩ ⟨2, 0⟩ rfl rfl (by decide) (by decide)
